import Mathlib

/-!
# rview: directory listing server (main.go)

A shallow embedding of `main.go`: the directory scan with its MIME filter
(`retrieveFiles`), the sort by modification time, the HTML table renderer
(`populatePage`, `entry`), the heading suffix (`filterTitle`) and the content
route handler.

Go strings are byte sequences, so they are lists of bytes here.  What the Go
standard library and the operating system contribute (the tree walk, the MIME
detection, the file read, `net/url`, `sort.Slice`, `time.Time`) is modelled
next to the place where the program calls it.
-/

namespace RView

/-! ## Go strings -/

/-- One byte of a Go string. -/
abbrev Byte := Fin 256

/-- A Go `string`: an immutable sequence of bytes. -/
abbrev GoString := List Byte

/-- The bytes of an ASCII string literal of the source. -/
def lit (s : String) : GoString :=
  s.toList.map (fun c => (⟨c.toNat % 256, Nat.mod_lt _ (by decide)⟩ : Byte))

/-- The byte of an ASCII character literal of the source. -/
def ch (c : Char) : Byte := ⟨c.toNat % 256, Nat.mod_lt _ (by decide)⟩

/-- A Go `error` value, carried as its message. -/
abbrev GoError := GoString

/-- Go `strings.HasPrefix(s, p)`. -/
def hasPrefix : GoString → GoString → Bool
  | _, [] => true
  | [], _ :: _ => false
  | c :: s, d :: p => c == d && hasPrefix s p

/-- Go `strings.Index(s, substr)`: the index of the first occurrence of
`substr` in `s`, or `-1` when there is none. -/
def stringsIndex : GoString → GoString → Int
  | [], substr => if substr = [] then 0 else -1
  | c :: s, substr =>
    if hasPrefix (c :: s) substr then 0
    else
      let i := stringsIndex s substr
      if i < 0 then -1 else i + 1

/-- Go `strings.Contains(s, substr)`, which is `Index(s, substr) >= 0`. -/
def stringsContains (s substr : GoString) : Bool :=
  decide (stringsIndex s substr ≥ 0)

/-! ## time.Time -/

/-- A Go `time.Time` without monotonic reading, as `ModTime` returns it: the
seconds since the Unix epoch, the nanoseconds within the second, and the
offset east of UTC (in seconds) that the value's location has at this
instant. -/
structure Time where
  sec : Int
  nsec : Fin 1000000000
  offset : Int
  deriving DecidableEq, Repr

namespace Time

/-- Go `t.After(u)`: compares seconds, then nanoseconds. -/
def After (t u : Time) : Bool :=
  decide (t.sec > u.sec) || (decide (t.sec = u.sec) && decide (t.nsec.val > u.nsec.val))

/-- Go `t.Before(u)`: compares seconds, then nanoseconds. -/
def Before (t u : Time) : Bool :=
  decide (t.sec < u.sec) || (decide (t.sec = u.sec) && decide (t.nsec.val < u.nsec.val))

/-- The instant as nanoseconds since the Unix epoch. -/
def nanos (t : Time) : Int := t.sec * 1000000000 + (t.nsec.val : Int)

end Time

/-! ## The scan: `retrieveFiles` -/

/-- The `entry_info` struct. -/
structure entry_info where
  name : GoString
  path : GoString
  date : Time
  deriving DecidableEq, Repr

/-- A `fs.FileInfo`, of which the program reads `ModTime()`. -/
structure FileInfo where
  modTime : Time
  deriving DecidableEq, Repr

/-- A non-nil `fs.DirEntry`: `Name()`, `IsDir()` and the result of `Info()`. -/
structure DirEntry where
  name : GoString
  isDir : Bool
  info : Except GoError FileInfo

/-- One entry that `filepath.WalkDir` visits: the path and directory entry it
passes to the callback, the error it reports with them (non-nil on the second
call for a directory whose `ReadDir` failed), and what
`mimetype.DetectFile(path)` followed by `String()` gives when the callback runs. -/
structure Visit where
  path : GoString
  d : DirEntry
  err : Option GoError
  detect : Except GoError GoString

/-- What `filepath.WalkDir(root, fn)` does with a root: when `Lstat(root)`
fails it calls `fn(root, nil, err)` once, with a nil directory entry;
otherwise it calls `fn` once per visited entry (twice for a directory that
cannot be read), each time with a non-nil directory entry. -/
inductive Walk where
  | lstatFailed (root : GoString) (err : GoError)
  | visited (vs : List Visit)

/-- The arguments of one callback invocation; `d = none` is the nil interface. -/
structure Call where
  path : GoString
  d : Option DirEntry
  err : Option GoError
  detect : Except GoError GoString

/-- The callback invocations of a walk, in order. -/
def Walk.calls : Walk → List Call
  | .lstatFailed root err => [⟨root, none, some err, .error err⟩]
  | .visited vs => vs.map (fun v => ⟨v.path, some v.d, v.err, v.detect⟩)

/-- A run-time panic of the Go program, which ends the process. -/
inductive Panic where
  | nilDereference
  deriving DecidableEq, Repr

/-- The callback that `retrieveFiles` hands to `WalkDir`: the closure state is
the slice `rs`; the result is the new `rs` and the returned `error`.  The
`err` parameter is not read (it is shadowed); `d.IsDir()` on a nil `d` panics. -/
def walkFn (filter : GoString) (rs : List entry_info) (c : Call) :
    Except Panic (List entry_info × Option GoError) :=
  match c.d with
  | none => .error .nilDereference
  | some d =>
    if d.isDir then .ok (rs, none)
    else
      match c.detect with
      | .error _ => .ok (rs, none)
      | .ok fileType =>
        if filter = lit "" || (filter ≠ lit "" && stringsContains fileType filter) then
          match d.info with
          | .error _ => .ok (rs, none)
          | .ok info => .ok (rs ++ [⟨d.name, c.path, info.modTime⟩], none)
        else .ok (rs, none)

/-- The loop of `filepath.WalkDir` over its callback invocations: a non-nil
error returned by the callback ends the walk. -/
def walkLoop (fn : List entry_info → Call → Except Panic (List entry_info × Option GoError)) :
    List entry_info → List Call → Except Panic (List entry_info × Option GoError)
  | rs, [] => .ok (rs, none)
  | rs, c :: cs =>
    match fn rs c with
    | .error p => .error p
    | .ok (rs1, some e) => .ok (rs1, some e)
    | .ok (rs1, none) => walkLoop fn rs1 cs

/-- Go `insertionSort_func`, the inner loop: the element `x` at index `j` is
swapped leftwards while `less(j, j-1)`.  The second argument is the part of
the slice to the left of `x`, nearest neighbour first. -/
def insertLeft {α : Type} (less : α → α → Bool) (x : α) : List α → List α
  | [] => [x]
  | y :: ys => if less x y then y :: insertLeft less x ys else x :: y :: ys

/-- Go `insertionSort_func(data, 0, len)`: every element in turn is moved
leftwards into the part before it. -/
def insertionSort_func {α : Type} (less : α → α → Bool) (data : List α) : List α :=
  (data.foldl (fun done x => insertLeft less x done) []).reverse

/-- Go `data.Swap(i, j)` on a slice, for indices within it (the only ones the
library passes); other indices leave the list as it is. -/
def swapAt {α : Type} (data : List α) (i j : Nat) : List α :=
  match data[i]?, data[j]? with
  | some x, some y => (data.set i y).set j x
  | _, _ => data

/-- A sequence of `data.Swap` calls, carried out in order. -/
def applySwaps {α : Type} (swaps : List (Nat × Nat)) (data : List α) : List α :=
  swaps.foldl (fun d ij => swapAt d ij.1 ij.2) data

/-- Go `sort.Slice(data, less)`, which runs `pdqsort_func` on the slice.  On a
slice of at most 12 elements (`maxInsertion`) that is `insertionSort_func`.
On a longer slice the library partitions, and may fall back to heap sort; it
is outside this program, reads the slice only through `less` and changes it
only through `data.Swap`, so this part is the parameter `pdqSwaps`: the `Swap`
calls the library makes for a given `less` and slice, in order. -/
def sortSlice {α : Type} (pdqSwaps : (α → α → Bool) → List α → List (Nat × Nat))
    (less : α → α → Bool) (data : List α) : List α :=
  if data.length ≤ 12 then insertionSort_func less data
  else applySwaps (pdqSwaps less data) data

/-- The `Swap` calls a sort makes on each slice, for a comparison on
`entry_info`: the type of the library part of `sort.Slice` in this program. -/
abbrev EntrySwaps := (entry_info → entry_info → Bool) → List entry_info → List (Nat × Nat)

/-- The function `retrieveFiles(root, mode, filter)`, over the walk of `root`
and over the library part of `sort.Slice`. -/
def retrieveFiles (pdqSwaps : EntrySwaps) (w : Walk) (mode filter : GoString) :
    Except Panic (List entry_info) :=
  match walkLoop (walkFn filter) [] w.calls with
  | .error p => .error p
  | .ok (rs, _) =>
    if mode = lit "lexy" then .ok rs
    else if mode = lit "lastmod" then
      .ok (sortSlice pdqSwaps (fun a b => a.date.After b.date) rs)
    else if mode = lit "bydate" then
      .ok (sortSlice pdqSwaps (fun a b => a.date.Before b.date) rs)
    else .ok rs

/-- The entry the scan produces for a visit: the files that are not
directories, whose MIME detection and metadata read succeeded and whose MIME
type contains the filter (any MIME type when the filter is empty). -/
def scanEntry (f : GoString) (v : Visit) : Option entry_info :=
  if v.d.isDir then none
  else
    match v.detect, v.d.info with
    | .ok mime, .ok info =>
      if f = [] ∨ f <:+: mime then some ⟨v.d.name, v.path, info.modTime⟩ else none
    | _, _ => none

/-- The entries the walk collects before the sort: `rs` at the `switch`. -/
def scan (f : GoString) (vs : List Visit) : List entry_info :=
  vs.filterMap (scanEntry f)

/-! ## net/url: query escaping -/

/-- Go `shouldEscape(c, encodeQueryComponent)`: only the unreserved characters
(letters, digits, `-`, `_`, `.`, `~`) are left as they are. -/
def shouldEscape (c : Byte) : Bool :=
  if (ch 'a' ≤ c && c ≤ ch 'z') || (ch 'A' ≤ c && c ≤ ch 'Z') || (ch '0' ≤ c && c ≤ ch '9') then
    false
  else if c = ch '-' || c = ch '_' || c = ch '.' || c = ch '~' then false
  else true

/-- Go `upperhex[i]`, with `upperhex = "0123456789ABCDEF"`. -/
def upperhex (i : Nat) : Byte := (lit "0123456789ABCDEF").getD i 0

/-- Go `escape(s, encodeQueryComponent)`, the counting loop: the numbers of
spaces and of other bytes to escape. -/
def escapeCount : GoString → Nat × Nat
  | [] => (0, 0)
  | c :: s =>
    let (spaceCount, hexCount) := escapeCount s
    if shouldEscape c then
      if c = ch ' ' then (spaceCount + 1, hexCount) else (spaceCount, hexCount + 1)
    else (spaceCount, hexCount)

/-- Go `escape(s, encodeQueryComponent)`, the writing loop: a space becomes
`+`, a byte to escape becomes `%` and two upper-case hex digits (`c>>4`, `c&15`). -/
def escapeWrite : GoString → GoString
  | [] => []
  | c :: s =>
    if c = ch ' ' then ch '+' :: escapeWrite s
    else if shouldEscape c then
      ch '%' :: upperhex (c.val >>> 4) :: upperhex (c.val &&& 15) :: escapeWrite s
    else c :: escapeWrite s

/-- Go `url.QueryEscape(s)`: the string itself when nothing needs escaping. -/
def QueryEscape (s : GoString) : GoString :=
  let (spaceCount, hexCount) := escapeCount s
  if spaceCount = 0 ∧ hexCount = 0 then s else escapeWrite s

/-- Go `ishex(c)`. -/
def ishex (c : Byte) : Bool :=
  (ch '0' ≤ c && c ≤ ch '9') || (ch 'a' ≤ c && c ≤ ch 'f') || (ch 'A' ≤ c && c ≤ ch 'F')

/-- Go `unhex(c)`. -/
def unhex (c : Byte) : Nat :=
  if ch '0' ≤ c ∧ c ≤ ch '9' then c.val - (ch '0').val
  else if ch 'a' ≤ c ∧ c ≤ ch 'f' then c.val - (ch 'a').val + 10
  else if ch 'A' ≤ c ∧ c ≤ ch 'F' then c.val - (ch 'A').val + 10
  else 0

/-- Go `unescape(s, encodeQueryComponent)`, the checking loop: the number of
`%` and whether a `+` occurs, or the `EscapeError` of a malformed `%`
(the offending bytes, at most three). -/
def unescapeCheck : GoString → Except GoError (Nat × Bool)
  | [] => .ok (0, false)
  | c :: s =>
    if c = ch '%' then
      match s with
      | h1 :: h2 :: s2 =>
        if ishex h1 && ishex h2 then
          match unescapeCheck s2 with
          | .ok (n, hasPlus) => .ok (n + 1, hasPlus)
          | .error e => .error e
        else .error [c, h1, h2]
      | _ => .error (c :: s)
    else if c = ch '+' then
      match unescapeCheck s with
      | .ok (n, _) => .ok (n, true)
      | .error e => .error e
    else unescapeCheck s

/-- Go `unescape(s, encodeQueryComponent)`, the writing loop: `%XY` becomes the
byte `unhex(X)<<4 | unhex(Y)`, `+` becomes a space. -/
def unescapeWrite : GoString → GoString
  | [] => []
  | c :: s =>
    if c = ch '%' then
      match s with
      | h1 :: h2 :: s2 =>
        (⟨(((unhex h1) <<< 4) ||| unhex h2) % 256, Nat.mod_lt _ (by decide)⟩ : Byte)
          :: unescapeWrite s2
      | _ => []
    else if c = ch '+' then ch ' ' :: unescapeWrite s
    else c :: unescapeWrite s

/-- Go `url.QueryUnescape(s)`. -/
def QueryUnescape (s : GoString) : Except GoError GoString :=
  match unescapeCheck s with
  | .error e => .error e
  | .ok (n, hasPlus) => if n = 0 ∧ hasPlus = false then .ok s else .ok (unescapeWrite s)

/-! ## net/url: Values -/

/-- Go `url.Values`, a `map[string][]string`: the keys are distinct. -/
abbrev Values := List (GoString × List GoString)

/-- The map read `v[key]`: the nil slice when the key is absent. -/
def Values.lookup (v : Values) (key : GoString) : List GoString :=
  match v with
  | [] => []
  | (k, vs) :: rest => if k = key then vs else Values.lookup rest key

/-- Go `v.Add(key, value)`: `v[key] = append(v[key], value)`. -/
def Values.Add (v : Values) (key value : GoString) : Values :=
  match v with
  | [] => [(key, [value])]
  | (k, vs) :: rest =>
    if k = key then (k, vs ++ [value]) :: rest else (k, vs) :: Values.Add rest key value

/-- Go `v.Get(key)`: the first value of the key, or the empty string. -/
def Values.Get (v : Values) (key : GoString) : GoString :=
  match v.lookup key with
  | [] => lit ""
  | x :: _ => x

/-- The order of Go strings: byte-wise lexicographic `<`. -/
def stringLess : GoString → GoString → Bool
  | [], [] => false
  | [], _ :: _ => true
  | _ :: _, [] => false
  | a :: s, b :: t => if a < b then true else if b < a then false else stringLess s t

/-- Go `slices.Sort(keys)` on the keys of a map: the keys are distinct and `<`
on strings is total, so the sorted list is the same for every sorting
algorithm; it is computed by insertion. -/
def sortKeys (keys : List GoString) : List GoString := insertionSort_func stringLess keys

/-- Go `v.Encode()`: the pairs `key=value`, escaped and joined by `&`, the keys
in sorted order. -/
def Values.Encode (v : Values) : GoString :=
  if v.length = 0 then lit ""
  else
    (sortKeys (v.map Prod.fst)).foldl
      (fun buf k =>
        let keyEscaped := QueryEscape k
        (v.lookup k).foldl
          (fun buf value =>
            (if buf.length > 0 then buf ++ [ch '&'] else buf)
              ++ keyEscaped ++ [ch '='] ++ QueryEscape value)
          buf)
      []

/-- Go `strings.Cut(s, sep)` for a one-byte separator: the text before the
first `sep`, the text after it, and whether `sep` occurs. -/
def cut (sep : Byte) : GoString → GoString × GoString × Bool
  | [] => ([], [], false)
  | c :: s =>
    if c = sep then ([], s, true)
    else
      let (before, after, found) := cut sep s
      (c :: before, after, found)

/-- Go `parseQuery(m, query)`, the loop `for query != ""`; each round removes
one `&`-separated piece from the front of `query`, so `fuel` rounds are enough
for a query of `fuel` bytes.  The result is the map and the returned error. -/
def parseQueryLoop : Nat → Values → Option GoError → GoString → Values × Option GoError
  | 0, m, err, _ => (m, err)
  | fuel + 1, m, err, query =>
    if query = lit "" then (m, err)
    else
      let (key, query1, _) := cut (ch '&') query
      if stringsContains key (lit ";") then
        parseQueryLoop fuel m (some (lit "invalid semicolon separator in query")) query1
      else if key = lit "" then parseQueryLoop fuel m err query1
      else
        let (key1, value, _) := cut (ch '=') key
        match QueryUnescape key1 with
        | .error err1 =>
          parseQueryLoop fuel m (if err = none then some err1 else err) query1
        | .ok key2 =>
          match QueryUnescape value with
          | .error err1 =>
            parseQueryLoop fuel m (if err = none then some err1 else err) query1
          | .ok value2 => parseQueryLoop fuel (Values.Add m key2 value2) err query1

/-- Go `url.ParseQuery(query)`. -/
def ParseQuery (query : GoString) : Values × Option GoError :=
  parseQueryLoop query.length [] none query

/-- Go `u.Query()`: `ParseQuery(u.RawQuery)` with the error dropped. -/
def Query (rawQuery : GoString) : Values := (ParseQuery rawQuery).1

/-! ## time.Time: formatting -/

namespace Time

/-- Go `isLeap(year)`. -/
def isLeap (year : Int) : Bool :=
  year % 4 = 0 && (year % 100 ≠ 0 || year % 400 = 0)

/-- Go `daysBefore[m]`: the days of a non-leap year before month `m + 1`. -/
def daysBefore (m : Nat) : Int :=
  [0, 31, 59, 90, 120, 151, 181, 212, 243, 273, 304, 334, 365].getD m 0

/-- The seconds since the Unix epoch shifted by the zone offset: the local
wall-clock reading that `Format` prints. -/
def localSec (t : Time) : Int := t.sec + t.offset

/-- Go `absDate`, the year part: the year and the zero-based day of the year of
a day number counted from 1970-01-01, by cutting off the cycles of 400, 100, 4
and 1 years; day 0 of the cycles is 0001-01-01, which is 719162 days before
1970-01-01. -/
def yearAndYday (days : Int) : Int × Int :=
  let d0 := days + 719162
  let n400 := d0 / 146097
  let d1 := d0 % 146097
  let n100a := d1 / 36524
  let n100 := n100a - n100a / 4
  let d2 := d1 - 36524 * n100
  let n4 := d2 / 1461
  let d3 := d2 - 1461 * n4
  let n1a := d3 / 365
  let n1 := n1a - n1a / 4
  let d4 := d3 - 365 * n1
  (400 * n400 + 100 * n100 + 4 * n4 + n1 + 1, d4)

/-- Go `absDate`, the month part: the month (1 to 12) and the day of the
month of the zero-based day `yday` of `year`. -/
def monthAndDay (year yday : Int) : Int × Int :=
  if isLeap year ∧ yday = 31 + 29 - 1 then (2, 29)
  else
    let day := if isLeap year ∧ yday > 31 + 29 - 1 then yday - 1 else yday
    let month := day / 31
    let endDay := daysBefore (month + 1).toNat
    if day ≥ endDay then (month + 1 + 1, day - endDay + 1)
    else (month + 1, day - daysBefore month.toNat + 1)

/-- Go `t.Year()`. -/
def Year (t : Time) : Int := (yearAndYday (t.localSec / 86400)).1

/-- Go `t.Month()`, as a number from 1 to 12. -/
def Month (t : Time) : Int :=
  (monthAndDay (yearAndYday (t.localSec / 86400)).1 (yearAndYday (t.localSec / 86400)).2).1

/-- Go `t.Day()`. -/
def Day (t : Time) : Int :=
  (monthAndDay (yearAndYday (t.localSec / 86400)).1 (yearAndYday (t.localSec / 86400)).2).2

/-- Go `t.Hour()`. -/
def Hour (t : Time) : Int := t.localSec % 86400 / 3600

/-- Go `t.Minute()`. -/
def Minute (t : Time) : Int := t.localSec % 3600 / 60

/-- Go `t.Second()`. -/
def Second (t : Time) : Int := t.localSec % 60

/-- Go `appendInt`, the digit loop `for u >= 10`: the last digit is `u % 10`
and the digits before it are those of `u / 10`; `fuel` bounds the rounds. -/
def decimalLoop : Nat → Nat → GoString
  | 0, _ => []
  | fuel + 1, u =>
    if u < 10 then [(⟨(48 + u) % 256, Nat.mod_lt _ (by decide)⟩ : Byte)]
    else decimalLoop fuel (u / 10) ++ [(⟨(48 + u % 10) % 256, Nat.mod_lt _ (by decide)⟩ : Byte)]

/-- The decimal digits of a number, most significant first; a number has at
most `u + 1` digits. -/
def decimal (u : Nat) : GoString := decimalLoop (u + 1) u

/-- Go `appendInt(b, x, width)`: a minus sign when `x` is negative, then the
decimal digits of the absolute value, zero-padded on the left to `width`. -/
def appendInt (x : Int) (width : Nat) : GoString :=
  (if x < 0 then [ch '-'] else [])
    ++ List.replicate (width - (decimal x.natAbs).length) (ch '0')
    ++ decimal x.natAbs

/-- Go `AppendFormat`, over the reference-time elements that the layout of
this program uses (`2006`, `01`, `02`, `15`, `04`, `05`); every other byte of
the layout is copied. -/
def Format (t : Time) : GoString → GoString
  | [] => []
  | c :: layout =>
    if hasPrefix (c :: layout) (lit "2006") then
      match layout with
      | _ :: _ :: _ :: rest => appendInt t.Year 4 ++ Format t rest
      | _ => []
    else if hasPrefix (c :: layout) (lit "01") then
      match layout with
      | _ :: rest => appendInt t.Month 2 ++ Format t rest
      | _ => []
    else if hasPrefix (c :: layout) (lit "02") then
      match layout with
      | _ :: rest => appendInt t.Day 2 ++ Format t rest
      | _ => []
    else if hasPrefix (c :: layout) (lit "15") then
      match layout with
      | _ :: rest => appendInt t.Hour 2 ++ Format t rest
      | _ => []
    else if hasPrefix (c :: layout) (lit "04") then
      match layout with
      | _ :: rest => appendInt t.Minute 2 ++ Format t rest
      | _ => []
    else if hasPrefix (c :: layout) (lit "05") then
      match layout with
      | _ :: rest => appendInt t.Second 2 ++ Format t rest
      | _ => []
    else c :: Format t layout

end Time

/-! ## The renderer: `populatePage`, `entry`, `filterTitle` -/

/-- The function `entry(filePath, name, date)`. -/
def entry (filePath name date : GoString) : GoString :=
  let params : Values := Values.Add [] (lit "path") filePath
  let e := lit "<tr><td><a href=\"/content/?" ++ params.Encode ++ lit "\">" ++ name
    ++ lit "</a></td>"
  e ++ (lit "<td>" ++ date ++ lit "</td></tr>")

/-- The function `populatePage(entries)`: the `strings.Builder` is the
accumulator of the loop. -/
def populatePage (entries : List entry_info) : GoString :=
  entries.foldl
    (fun w e => w ++ entry e.path e.name (e.date.Format (lit "2006-01-02 15:04:05")) ++ lit "\n")
    []

/-- The function `filterTitle(f)`. -/
def filterTitle (f : GoString) : GoString :=
  if f = lit "" then lit "" else lit ", with filter: " ++ f

/-- The heading text of the index page: the argument
`fpath + filterTitle(*filter)` of the `<h3>` line. -/
def headingText (fpath filter : GoString) : GoString := fpath ++ filterTitle filter

/-! ## The content route -/

/-- The state of a `http.ResponseWriter`: the method of the request it
answers, whether the header was written, the status code written, and the
body bytes sent so far. -/
structure ResponseWriter where
  method : GoString
  wroteHeader : Bool
  status : Nat
  body : List Byte
  deriving DecidableEq, Repr

/-- Go `w.WriteHeader(code)`: only the first call sets the status. -/
def ResponseWriter.WriteHeader (w : ResponseWriter) (code : Nat) : ResponseWriter :=
  if w.wroteHeader then w else { w with wroteHeader := true, status := code }

/-- Go `w.Write(data)`: writes the header with status 200 when none was
written, then sends the data; for a `HEAD` request the server eats the
writes and sends no body. -/
def ResponseWriter.Write (w : ResponseWriter) (data : List Byte) : ResponseWriter :=
  let w1 := if w.wroteHeader then w else w.WriteHeader 200
  if w1.method = lit "HEAD" then w1 else { w1 with body := w1.body ++ data }

/-- The response a client receives: status code and body. -/
structure Response where
  status : Nat
  body : List Byte
  deriving DecidableEq, Repr

/-- The response sent when the handler returns: status 200 when the handler
wrote no header. -/
def ResponseWriter.finish (w : ResponseWriter) : Response :=
  ⟨if w.wroteHeader then w.status else 200, w.body⟩

/-- The handler of `/content/` in `main`, over `os.ReadFile` as a function of
the path, and over the method and the raw query of the request. -/
def contentHandler (readFile : GoString → Except GoError (List Byte))
    (method rawQuery : GoString) : Response :=
  let w : ResponseWriter := ⟨method, false, 0, []⟩
  let path := (Query rawQuery).Get (lit "path")
  match readFile path with
  | .error _ => (w.WriteHeader 404).finish
  | .ok data => (w.Write data).finish

/-- The file read of a filesystem that holds one file. -/
def oneFile (path : GoString) (content : List Byte) (p : GoString) :
    Except GoError (List Byte) :=
  if p = path then .ok content else .error (lit "no such file or directory")

/-! ## Reading a rendered link back -/

/-- The text of `s` after the first occurrence of `marker` (empty when there
is none). -/
def afterFirst (marker : GoString) : GoString → GoString
  | [] => []
  | c :: s =>
    if hasPrefix (c :: s) marker then (c :: s).drop marker.length
    else afterFirst marker s

/-- The query of a rendered link: the text after `/content/?` up to the next
double quote. -/
def hrefQuery (html : GoString) : GoString :=
  (afterFirst (lit "/content/?") html).takeWhile (fun c => c ≠ ch '\"')

/-- The bytes `QueryEscape` can write: the unreserved ones, `+` and `%`. -/
def escapedByte (b : Byte) : Bool := !shouldEscape b || b == ch '+' || b == ch '%'

/-- The ASCII digit of a number below ten. -/
def digit (k : Nat) : Byte := ⟨(48 + k) % 256, Nat.mod_lt _ (by decide)⟩

/-- A number from 0 to 99 as two decimal digits, zero-padded. -/
def twoDigits (x : Int) : GoString := [digit (x.toNat / 10), digit (x.toNat % 10)]

/-- A number from 0 to 9999 as four decimal digits, zero-padded. -/
def fourDigits (x : Int) : GoString :=
  [digit (x.toNat / 1000), digit (x.toNat / 100 % 10), digit (x.toNat / 10 % 10),
   digit (x.toNat % 10)]

/-! ## The Gregorian calendar

The calendar as it is defined, not as `absDate` computes it: the leap-year
rule, the lengths of the months, and the count of days from 1970-01-01 to a
date. -/

/-- The leap-year rule: every fourth year, but of the centuries only every
fourth. -/
def leapYear (y : Int) : Bool := y % 4 = 0 && (y % 100 ≠ 0 || y % 400 = 0)

/-- The number of days of month `m` (1 to 12) of year `y`. -/
def daysInMonth (y m : Int) : Int :=
  if m = 2 then (if leapYear y then 29 else 28)
  else if m = 4 ∨ m = 6 ∨ m = 9 ∨ m = 11 then 30
  else 31

/-- The days of year `y` before the first day of month `m`. -/
def daysBeforeMonth (y m : Int) : Int :=
  ((List.range (m.toNat - 1)).map (fun k => daysInMonth y ((k : Int) + 1))).sum

/-- The days from 1970-01-01 to January 1 of year `y`: 365 for every year and
one more for every leap year in between. -/
def daysBeforeYear (y : Int) : Int :=
  365 * (y - 1970) + ((y - 1) / 4 - 1969 / 4) - ((y - 1) / 100 - 1969 / 100)
    + ((y - 1) / 400 - 1969 / 400)

/-- The days from 1970-01-01 to day `d` of month `m` of year `y`. -/
def daysFromCivil (y m d : Int) : Int :=
  daysBeforeYear y + daysBeforeMonth y m + (d - 1)

/-! ## The contract of the library sort -/

/-- What the `sort` package requires of `less`: a transitive ordering, in
which no element sorts before itself. -/
def TransitiveOrdering {α : Type} (less : α → α → Bool) : Prop :=
  (∀ a, less a a = false)
    ∧ (∀ a b c, less a b = true → less b c = true → less a c = true)
    ∧ (∀ a b c, less a b = false → less b c = false → less a c = false)

/-- The `Swap` calls of the inner loop of an insertion sort, for the element at
index `j` of `data`. -/
def leftSwaps {α : Type} (less : α → α → Bool) : List α → Nat → List (Nat × Nat)
  | _, 0 => []
  | data, j + 1 =>
    match data[j + 1]?, data[j]? with
    | some x, some y =>
      if less x y then (j + 1, j) :: leftSwaps less (swapAt data (j + 1) j) j else []
    | _, _ => []

/-- The `Swap` calls of an insertion sort from index `i` on, for `fuel`
elements. -/
def insertionSwaps {α : Type} (less : α → α → Bool) : Nat → Nat → List α → List (Nat × Nat)
  | 0, _, _ => []
  | fuel + 1, i, data =>
    leftSwaps less data i
      ++ insertionSwaps less fuel (i + 1) (applySwaps (leftSwaps less data i) data)

/-- An insertion sort as the `Swap` calls it makes: one sort that fits the
library part of `sort.Slice`. -/
def insertionSortSwaps {α : Type} (less : α → α → Bool) (data : List α) : List (Nat × Nat) :=
  insertionSwaps less data.length 0 data

/-! ## Walks used as examples -/

/-- The visit of a regular file whose MIME detection and metadata read
succeed. -/
def fileVisit (path name mime : GoString) (t : Time) : Visit :=
  ⟨path, ⟨name, false, .ok ⟨t⟩⟩, none, .ok mime⟩

/-- The visit of a directory. -/
def dirVisit (path name : GoString) (t : Time) : Visit :=
  ⟨path, ⟨name, true, .ok ⟨t⟩⟩, none, .error (lit "read: is a directory")⟩

/-- The walk of the scenario, in the lexical order of `WalkDir`: the root and
three directories `x`, `y`, `z` that hold `c.mkv`, `b.txt` and `a.mp4`, with
modification times 300, 200 and 100 seconds after the epoch. -/
def scenarioWalk : List Visit :=
  [dirVisit (lit "root") (lit "root") ⟨50, 0, 0⟩,
   dirVisit (lit "root/x") (lit "x") ⟨50, 0, 0⟩,
   fileVisit (lit "root/x/c.mkv") (lit "c.mkv") (lit "video/x-matroska") ⟨300, 0, 0⟩,
   dirVisit (lit "root/y") (lit "y") ⟨50, 0, 0⟩,
   fileVisit (lit "root/y/b.txt") (lit "b.txt") (lit "text/plain") ⟨200, 0, 0⟩,
   dirVisit (lit "root/z") (lit "z") ⟨50, 0, 0⟩,
   fileVisit (lit "root/z/a.mp4") (lit "a.mp4") (lit "video/mp4") ⟨100, 0, 0⟩]

/-- A walk that finds two files out of name order, in the lexical order of
`WalkDir`: the root, its directory `a` with the file `z.mp4`, then the file
`b.mp4` of the root. -/
def unsortedWalk : List Visit :=
  [dirVisit (lit "root") (lit "root") ⟨50, 0, 0⟩,
   dirVisit (lit "root/a") (lit "a") ⟨50, 0, 0⟩,
   fileVisit (lit "root/a/z.mp4") (lit "z.mp4") (lit "video/mp4") ⟨100, 0, 0⟩,
   fileVisit (lit "root/b.mp4") (lit "b.mp4") (lit "video/mp4") ⟨200, 0, 0⟩]

/-- Fourteen files `f00` to `f13` of a root directory, all of type video/mp4;
the modification time of file `i` is `(i * 5) % 7` seconds after the epoch,
so some times are tied. -/
def fourteenFiles : List Visit :=
  dirVisit (lit "root") (lit "root") ⟨50, 0, 0⟩
    :: (List.range 14).map (fun i : Nat =>
        fileVisit (lit "root/f" ++ twoDigits (Int.ofNat i)) (lit "f" ++ twoDigits (Int.ofNat i))
          (lit "video/mp4") ⟨Int.ofNat (i * 5 % 7), 0, 0⟩)

/-- Two entries with modification times in 1970 and in 2024. -/
def twoEntries : List entry_info :=
  [⟨lit "a.mp4", lit "/srv/a b.mp4", ⟨86399, 0, 0⟩⟩,
   ⟨lit "c.mkv", lit "/srv/c.mkv", ⟨1709251199, 0, 3600⟩⟩]

/-! ## Lemmas on strings -/

theorem hasPrefix_iff (s p : GoString) : hasPrefix s p = true ↔ p <+: s := by
  induction s generalizing p with
  | nil =>
    cases p with
    | nil => simp [hasPrefix]
    | cons d p => simp [hasPrefix]
  | cons c s ih =>
    cases p with
    | nil => simp [hasPrefix]
    | cons d p =>
      simp only [hasPrefix, Bool.and_eq_true, beq_iff_eq, ih, List.cons_prefix_cons]
      constructor
      · rintro ⟨h1, h2⟩
        exact ⟨h1.symm, h2⟩
      · rintro ⟨h1, h2⟩
        exact ⟨h1.symm, h2⟩

theorem stringsIndex_ge_neg_one (s p : GoString) : -1 ≤ stringsIndex s p := by
  induction s with
  | nil =>
    unfold stringsIndex
    split <;> omega
  | cons c s ih =>
    unfold stringsIndex
    split
    · omega
    · simp only
      split <;> omega

theorem stringsIndex_nonneg_iff (s p : GoString) : 0 ≤ stringsIndex s p ↔ p <:+: s := by
  induction s with
  | nil =>
    unfold stringsIndex
    by_cases hp : p = []
    · simp [hp]
    · simp [hp]
  | cons c s ih =>
    unfold stringsIndex
    by_cases hpre : hasPrefix (c :: s) p = true
    · simp only [hpre, if_true, le_refl, true_iff]
      exact ((hasPrefix_iff _ _).1 hpre).isInfix
    · simp only [hpre]
      rw [List.infix_cons_iff]
      have hnp : ¬ p <+: c :: s := fun h => hpre ((hasPrefix_iff _ _).2 h)
      have hge := stringsIndex_ge_neg_one s p
      constructor
      · intro h
        right
        apply ih.1
        by_contra hneg
        have hlt : stringsIndex s p < 0 := by omega
        simp [hlt] at h
      · intro h
        rcases h with h | h
        · exact absurd h hnp
        · have h0 := ih.2 h
          have hnlt : ¬ stringsIndex s p < 0 := by omega
          simp only [Bool.false_eq_true, if_false, hnlt]
          omega

theorem stringsContains_iff (s p : GoString) : stringsContains s p = true ↔ p <:+: s := by
  unfold stringsContains
  rw [decide_eq_true_iff]
  exact stringsIndex_nonneg_iff s p

/-! ## Lemmas on the scan -/

theorem walkFn_visit (f : GoString) (rs : List entry_info) (v : Visit) :
    walkFn f rs ⟨v.path, some v.d, v.err, v.detect⟩
      = .ok (rs ++ (scanEntry f v).toList, none) := by
  unfold walkFn scanEntry
  by_cases hd : v.d.isDir = true
  · simp [hd]
  · simp only [hd, Bool.false_eq_true, if_false]
    cases hdet : v.detect with
    | error e => simp
    | ok mime =>
      cases hinfo : v.d.info with
      | error e =>
        simp only [hinfo]
        split <;> simp
      | ok info =>
        simp only [hinfo]
        by_cases hf : f = []
        · simp [hf, lit]
        · have hl : f ≠ lit "" := by simpa [lit] using hf
          by_cases hc : f <:+: mime
          · have hc2 := (stringsContains_iff mime f).2 hc
            simp [hf, hl, hc, hc2, lit]
          · have hc2 : stringsContains mime f = false := by
              cases h : stringsContains mime f with
              | false => rfl
              | true => exact absurd ((stringsContains_iff mime f).1 h) hc
            simp [hf, hc, hc2, lit]

theorem walkLoop_visited (f : GoString) (vs : List Visit) (rs : List entry_info) :
    walkLoop (walkFn f) rs (Walk.visited vs).calls
      = .ok (rs ++ vs.filterMap (scanEntry f), none) := by
  induction vs generalizing rs with
  | nil => simp [Walk.calls, walkLoop]
  | cons v vs ih =>
    have hstep := walkFn_visit f rs v
    simp only [Walk.calls, List.map_cons, walkLoop, hstep]
    have ih2 := ih (rs ++ (scanEntry f v).toList)
    simp only [Walk.calls] at ih2
    rw [ih2]
    cases hs : scanEntry f v with
    | none => simp [List.filterMap_cons, hs]
    | some e => simp [List.filterMap_cons, hs]

theorem retrieveFiles_visited (pdqSwaps : EntrySwaps) (vs : List Visit) (mode f : GoString) :
    retrieveFiles pdqSwaps (.visited vs) mode f =
      if mode = lit "lexy" then .ok (scan f vs)
      else if mode = lit "lastmod" then
        .ok (sortSlice pdqSwaps (fun a b => a.date.After b.date) (scan f vs))
      else if mode = lit "bydate" then
        .ok (sortSlice pdqSwaps (fun a b => a.date.Before b.date) (scan f vs))
      else .ok (scan f vs) := by
  unfold retrieveFiles
  rw [walkLoop_visited]
  simp [scan]

/-! ## Lemmas on the sort -/

theorem Time.After_iff (t u : Time) : t.After u = true ↔ u.nanos < t.nanos := by
  have h1 := t.nsec.isLt
  have h2 := u.nsec.isLt
  simp only [Time.After, Time.nanos, Bool.or_eq_true, Bool.and_eq_true, decide_eq_true_iff]
  constructor
  · rintro (h | ⟨h, h3⟩) <;> omega
  · intro h
    by_cases hs : t.sec > u.sec
    · exact Or.inl hs
    · right
      constructor <;> omega

theorem Time.Before_iff (t u : Time) : t.Before u = true ↔ t.nanos < u.nanos := by
  have h1 := t.nsec.isLt
  have h2 := u.nsec.isLt
  simp only [Time.Before, Time.nanos, Bool.or_eq_true, Bool.and_eq_true, decide_eq_true_iff]
  constructor
  · rintro (h | ⟨h, h3⟩) <;> omega
  · intro h
    by_cases hs : t.sec < u.sec
    · exact Or.inl hs
    · right
      constructor <;> omega

theorem insertLeft_perm {α : Type} (less : α → α → Bool) (x : α) (l : List α) :
    (insertLeft less x l).Perm (x :: l) := by
  induction l with
  | nil => simp [insertLeft]
  | cons y ys ih =>
    unfold insertLeft
    split
    · exact (List.Perm.cons y ih).trans (List.Perm.swap x y ys)
    · exact List.Perm.refl _

theorem foldl_insertLeft_perm {α : Type} (less : α → α → Bool) (data done : List α) :
    (data.foldl (fun done x => insertLeft less x done) done).Perm (data ++ done) := by
  induction data generalizing done with
  | nil => simp
  | cons x xs ih =>
    simp only [List.foldl_cons]
    refine (ih _).trans ?_
    refine (List.Perm.append_left xs (insertLeft_perm less x done)).trans ?_
    simp

theorem insertionSort_perm {α : Type} (less : α → α → Bool) (data : List α) :
    (insertionSort_func less data).Perm data := by
  unfold insertionSort_func
  refine (List.reverse_perm _).trans ?_
  simpa using foldl_insertLeft_perm less data []

theorem insertLeft_pairwise {α : Type} (less : α → α → Bool)
    (hasym : ∀ a b, less a b = true → less b a = false)
    (htrans : ∀ a b c, less a b = false → less b c = false → less a c = false)
    (x : α) (l : List α) (hl : l.Pairwise (fun p q => less p q = false)) :
    (insertLeft less x l).Pairwise (fun p q => less p q = false) := by
  induction l with
  | nil => simp [insertLeft]
  | cons y ys ih =>
    rw [List.pairwise_cons] at hl
    unfold insertLeft
    by_cases hxy : less x y = true
    · simp only [hxy, if_true]
      rw [List.pairwise_cons]
      refine ⟨?_, ih hl.2⟩
      intro z hz
      rcases List.mem_cons.1 ((insertLeft_perm less x ys).mem_iff.1 hz) with h | h
      · rw [h]; exact hasym x y hxy
      · exact hl.1 z h
    · have hxy2 : less x y = false := by simpa using hxy
      simp only [hxy2, Bool.false_eq_true, if_false]
      rw [List.pairwise_cons, List.pairwise_cons]
      refine ⟨?_, hl⟩
      intro z hz
      rcases List.mem_cons.1 hz with h | h
      · rw [h]; exact hxy2
      · exact htrans x y z hxy2 (hl.1 z h)

theorem insertionSort_pairwise {α : Type} (less : α → α → Bool)
    (hasym : ∀ a b, less a b = true → less b a = false)
    (htrans : ∀ a b c, less a b = false → less b c = false → less a c = false)
    (data : List α) :
    (insertionSort_func less data).Pairwise (fun a b => less b a = false) := by
  have hfold : ∀ (xs done : List α), done.Pairwise (fun p q => less p q = false) →
      (xs.foldl (fun done x => insertLeft less x done) done).Pairwise
        (fun p q => less p q = false) := by
    intro xs
    induction xs with
    | nil => intro done hd; simpa using hd
    | cons x xs ih =>
      intro done hd
      simp only [List.foldl_cons]
      exact ih _ (insertLeft_pairwise less hasym htrans x done hd)
  unfold insertionSort_func
  rw [List.pairwise_reverse]
  exact hfold data [] List.Pairwise.nil

theorem swapAt_cons_succ {α : Type} (a : α) (t : List α) (i j : Nat) :
    swapAt (a :: t) (i + 1) (j + 1) = a :: swapAt t i j := by
  unfold swapAt
  simp only [List.getElem?_cons_succ]
  cases t[i]? <;> cases t[j]? <;> simp

theorem set_head_perm {α : Type} (a y : α) (t : List α) (k : Nat) (h : t[k]? = some y) :
    (y :: t.set k a).Perm (a :: t) := by
  induction t generalizing k with
  | nil => simp at h
  | cons b t ih =>
    cases k with
    | zero =>
      simp only [List.getElem?_cons_zero, Option.some.injEq] at h
      subst h
      simpa using List.Perm.swap a b t
    | succ k =>
      simp only [List.getElem?_cons_succ] at h
      simp only [List.set_cons_succ]
      exact (List.Perm.swap b y _).trans (((ih k h).cons b).trans (List.Perm.swap a b t))

theorem swapAt_perm {α : Type} (data : List α) (i j : Nat) : (swapAt data i j).Perm data := by
  induction data generalizing i j with
  | nil => simp [swapAt]
  | cons a t ih =>
    cases i with
    | zero =>
      cases j with
      | zero => simp [swapAt]
      | succ j =>
        unfold swapAt
        cases h : t[j]? with
        | none => simp [h]
        | some y =>
          simp only [List.getElem?_cons_zero, List.getElem?_cons_succ, h, List.set_cons_zero,
            List.set_cons_succ]
          exact set_head_perm a y t j h
    | succ i =>
      cases j with
      | zero =>
        unfold swapAt
        cases h : t[i]? with
        | none => simp [h]
        | some x =>
          simp only [List.getElem?_cons_zero, List.getElem?_cons_succ, h, List.set_cons_zero,
            List.set_cons_succ]
          exact set_head_perm a x t i h
      | succ j =>
        rw [swapAt_cons_succ]
        exact (ih i j).cons a

theorem applySwaps_perm {α : Type} (swaps : List (Nat × Nat)) (data : List α) :
    (applySwaps swaps data).Perm data := by
  induction swaps generalizing data with
  | nil => exact List.Perm.refl _
  | cons ij swaps ih =>
    unfold applySwaps
    rw [List.foldl_cons]
    exact (ih (swapAt data ij.1 ij.2)).trans (swapAt_perm data ij.1 ij.2)

theorem sortSlice_perm {α : Type} (pdqSwaps : (α → α → Bool) → List α → List (Nat × Nat))
    (less : α → α → Bool) (data : List α) : (sortSlice pdqSwaps less data).Perm data := by
  unfold sortSlice
  split
  · exact insertionSort_perm less data
  · exact applySwaps_perm _ data

theorem TransitiveOrdering.asymm {α : Type} {less : α → α → Bool} (h : TransitiveOrdering less)
    (a b : α) (hab : less a b = true) : less b a = false := by
  cases hba : less b a with
  | false => rfl
  | true =>
    have := h.2.1 a b a hab hba
    rw [h.1 a] at this
    exact absurd this (by simp)

theorem sortSlice_chain {α : Type} (pdqSwaps : (α → α → Bool) → List α → List (Nat × Nat))
    (less : α → α → Bool) (hless : TransitiveOrdering less) (data : List α)
    (hlong : 12 < data.length →
      List.Chain' (fun a b => less b a = false) (applySwaps (pdqSwaps less data) data)) :
    List.Chain' (fun a b => less b a = false) (sortSlice pdqSwaps less data) := by
  unfold sortSlice
  split
  · exact List.Pairwise.chain'
      (insertionSort_pairwise less (fun a b => hless.asymm a b) hless.2.2 data)
  · exact hlong (by omega)

theorem After_ordering : TransitiveOrdering (fun a b : entry_info => a.date.After b.date) := by
  have hkey : ∀ a b : entry_info, a.date.After b.date = false ↔ a.date.nanos ≤ b.date.nanos := by
    intro a b
    rw [← Bool.not_eq_true, Time.After_iff]
    omega
  refine ⟨fun a => (hkey a a).2 (le_refl _), ?_, ?_⟩
  · intro a b c h1 h2
    have h3 := (Time.After_iff _ _).1 h1
    have h4 := (Time.After_iff _ _).1 h2
    exact (Time.After_iff _ _).2 (by omega)
  · intro a b c h1 h2
    have h3 := (hkey a b).1 h1
    have h4 := (hkey b c).1 h2
    exact (hkey a c).2 (by omega)

theorem Before_ordering : TransitiveOrdering (fun a b : entry_info => a.date.Before b.date) := by
  have hkey : ∀ a b : entry_info, a.date.Before b.date = false ↔ b.date.nanos ≤ a.date.nanos := by
    intro a b
    rw [← Bool.not_eq_true, Time.Before_iff]
    omega
  refine ⟨fun a => (hkey a a).2 (le_refl _), ?_, ?_⟩
  · intro a b c h1 h2
    have h3 := (Time.Before_iff _ _).1 h1
    have h4 := (Time.Before_iff _ _).1 h2
    exact (Time.Before_iff _ _).2 (by omega)
  · intro a b c h1 h2
    have h3 := (hkey a b).1 h1
    have h4 := (hkey b c).1 h2
    exact (hkey a c).2 (by omega)

theorem After_chain_nanos (rs : List entry_info)
    (h : List.Chain' (fun a b : entry_info => b.date.After a.date = false) rs) :
    List.Chain' (fun a b : entry_info => b.date.nanos ≤ a.date.nanos) rs := by
  refine List.Chain'.imp ?_ h
  intro a b hab
  rw [← Bool.not_eq_true, Time.After_iff] at hab
  omega

theorem Before_chain_nanos (rs : List entry_info)
    (h : List.Chain' (fun a b : entry_info => b.date.Before a.date = false) rs) :
    List.Chain' (fun a b : entry_info => a.date.nanos ≤ b.date.nanos) rs := by
  refine List.Chain'.imp ?_ h
  intro a b hab
  rw [← Bool.not_eq_true, Time.Before_iff] at hab
  omega

/-! ## The insertion sort as `Swap` calls -/

theorem swapAt_adjacent {α : Type} (p : List α) (y x : α) (rest : List α) :
    swapAt (p ++ y :: x :: rest) (p.length + 1) p.length = p ++ x :: y :: rest := by
  induction p with
  | nil => simp [swapAt]
  | cons a p ih =>
    simp only [List.cons_append, List.length_cons]
    rw [swapAt_cons_succ, ih]

theorem insertLeft_length {α : Type} (less : α → α → Bool) (x : α) (l : List α) :
    (insertLeft less x l).length = l.length + 1 := by
  simpa using (insertLeft_perm less x l).length_eq

theorem leftSwaps_spec {α : Type} (less : α → α → Bool) (ys : List α) (x : α) (rest : List α) :
    applySwaps (leftSwaps less (ys.reverse ++ x :: rest) ys.length) (ys.reverse ++ x :: rest)
      = (insertLeft less x ys).reverse ++ rest := by
  induction ys generalizing rest with
  | nil => simp [leftSwaps, applySwaps, insertLeft]
  | cons y ys ih =>
    have hdata : (y :: ys).reverse ++ x :: rest = ys.reverse ++ y :: x :: rest := by simp
    have hx : (ys.reverse ++ y :: x :: rest)[ys.length + 1]? = some x := by
      rw [List.getElem?_append_right (by simp)]
      simp
    have hy : (ys.reverse ++ y :: x :: rest)[ys.length]? = some y := by
      rw [List.getElem?_append_right (by simp)]
      simp
    have hswap : swapAt (ys.reverse ++ y :: x :: rest) (ys.length + 1) ys.length
        = ys.reverse ++ x :: y :: rest := by
      have := swapAt_adjacent ys.reverse y x rest
      simpa using this
    rw [hdata, List.length_cons]
    unfold leftSwaps
    simp only [hx, hy]
    unfold insertLeft
    by_cases hl : less x y = true
    · simp only [hl, if_true]
      unfold applySwaps
      rw [List.foldl_cons]
      simp only [hswap]
      have := ih (y :: rest)
      unfold applySwaps at this
      rw [this]
      simp
    · simp only [hl, Bool.false_eq_true, if_false]
      simp [applySwaps]

theorem insertionSwaps_spec {α : Type} (less : α → α → Bool) (rest done : List α) :
    applySwaps (insertionSwaps less rest.length done.length (done.reverse ++ rest))
        (done.reverse ++ rest)
      = (rest.foldl (fun d x => insertLeft less x d) done).reverse := by
  induction rest generalizing done with
  | nil => simp [insertionSwaps, applySwaps]
  | cons x rest ih =>
    simp only [List.length_cons, insertionSwaps, List.foldl_cons]
    have happ : ∀ (s1 s2 : List (Nat × Nat)) (d : List α),
        applySwaps (s1 ++ s2) d = applySwaps s2 (applySwaps s1 d) := by
      intro s1 s2 d
      simp [applySwaps, List.foldl_append]
    rw [happ, leftSwaps_spec]
    have := ih (insertLeft less x done)
    rw [insertLeft_length] at this
    exact this

theorem insertionSortSwaps_eq {α : Type} (less : α → α → Bool) (data : List α) :
    applySwaps (insertionSortSwaps less data) data = insertionSort_func less data := by
  have := insertionSwaps_spec less data []
  simpa [insertionSortSwaps, insertionSort_func] using this

theorem insertionSortSwaps_sorts {α : Type} (less : α → α → Bool) (data : List α)
    (hless : TransitiveOrdering less) :
    List.Chain' (fun a b => less b a = false) (applySwaps (insertionSortSwaps less data) data) := by
  rw [insertionSortSwaps_eq]
  exact List.Pairwise.chain'
    (insertionSort_pairwise less (fun a b => hless.asymm a b) hless.2.2 data)

theorem lit_lastmod_ne_lexy : lit "lastmod" ≠ lit "lexy" := by decide

theorem lit_bydate_ne_lexy : lit "bydate" ≠ lit "lexy" := by decide

theorem lit_bydate_ne_lastmod : lit "bydate" ≠ lit "lastmod" := by decide

theorem retrieveFiles_lastmod (pdqSwaps : EntrySwaps) (vs : List Visit) (f : GoString) :
    retrieveFiles pdqSwaps (.visited vs) (lit "lastmod") f
      = .ok (sortSlice pdqSwaps (fun a b => a.date.After b.date) (scan f vs)) := by
  rw [retrieveFiles_visited, if_neg lit_lastmod_ne_lexy, if_pos rfl]

theorem retrieveFiles_bydate (pdqSwaps : EntrySwaps) (vs : List Visit) (f : GoString) :
    retrieveFiles pdqSwaps (.visited vs) (lit "bydate") f
      = .ok (sortSlice pdqSwaps (fun a b => a.date.Before b.date) (scan f vs)) := by
  rw [retrieveFiles_visited, if_neg lit_bydate_ne_lexy, if_neg lit_bydate_ne_lastmod, if_pos rfl]

theorem retrieveFiles_lexy (pdqSwaps : EntrySwaps) (vs : List Visit) (f : GoString) :
    retrieveFiles pdqSwaps (.visited vs) (lit "lexy") f = .ok (scan f vs) := by
  rw [retrieveFiles_visited, if_pos rfl]

theorem scan_filter_not_dir (f : GoString) (vs : List Visit) :
    scan f (vs.filter (fun v => !v.d.isDir)) = scan f vs := by
  unfold scan
  rw [List.filterMap_filter]
  congr 1
  funext v
  unfold scanEntry
  cases v.d.isDir <;> simp

/-! ## The claims on the scan and the sort -/

/-- C1: in mode `lexy`, `retrieveFiles` returns, in walk order, exactly the
entries of the visits that are not directories, whose MIME detection and
metadata read succeeded and whose MIME type contains the filter as a
substring; with the empty filter the substring condition is dropped; the
directories of the walk contribute nothing to the result. -/
theorem retrieveFiles_lexy_exact (pdqSwaps : EntrySwaps) (f : GoString) (vs : List Visit) :
    retrieveFiles pdqSwaps (.visited vs) (lit "lexy") f
        = .ok (vs.filterMap (fun v =>
            if v.d.isDir then none
            else
              match v.detect, v.d.info with
              | .ok mime, .ok info =>
                if f = [] ∨ f <:+: mime then some ⟨v.d.name, v.path, info.modTime⟩ else none
              | _, _ => none))
      ∧ retrieveFiles pdqSwaps (.visited vs) (lit "lexy") (lit "")
        = .ok (vs.filterMap (fun v =>
            if v.d.isDir then none
            else
              match v.detect, v.d.info with
              | .ok _, .ok info => some ⟨v.d.name, v.path, info.modTime⟩
              | _, _ => none))
      ∧ retrieveFiles pdqSwaps (.visited vs) (lit "lexy") f
        = retrieveFiles pdqSwaps (.visited (vs.filter (fun v => !v.d.isDir))) (lit "lexy") f := by
  refine ⟨?_, ?_, ?_⟩
  · rw [retrieveFiles_lexy]
    rfl
  · rw [retrieveFiles_lexy]
    unfold scan
    have hfun : scanEntry (lit "") = (fun v : Visit =>
        if v.d.isDir then none
        else
          match v.detect, v.d.info with
          | .ok _, .ok info => some (⟨v.d.name, v.path, info.modTime⟩ : entry_info)
          | _, _ => none) := by
      funext v
      unfold scanEntry
      by_cases hd : v.d.isDir = true
      · simp [hd]
      · simp only [hd, Bool.false_eq_true, if_false]
        cases v.detect <;> cases v.d.info <;> simp [lit]
    rw [hfun]
  · rw [retrieveFiles_lexy, retrieveFiles_lexy, scan_filter_not_dir]

/-- C2: mode `lastmod` returns a list whose modification times never increase
from one element to the next, and mode `bydate` a list whose modification
times never decrease.  Up to 12 entries this is proved of the insertion sort
the library runs; for more entries it rests on the contract of `sort.Slice`,
the hypothesis: for a transitive ordering `less`, the library leaves a slice
of more than 12 elements with no element that sorts before its left
neighbour (`sort.SliceIsSorted`). -/
theorem retrieveFiles_sorted_by_date (pdqSwaps : EntrySwaps)
    (hsort : ∀ (less : entry_info → entry_info → Bool) (data : List entry_info),
      TransitiveOrdering less → 12 < data.length →
        List.Chain' (fun a b => less b a = false) (applySwaps (pdqSwaps less data) data))
    (f : GoString) (vs : List Visit) :
    (∃ rs, retrieveFiles pdqSwaps (.visited vs) (lit "lastmod") f = .ok rs
        ∧ List.Chain' (fun a b => b.date.nanos ≤ a.date.nanos) rs)
      ∧ (∃ rs, retrieveFiles pdqSwaps (.visited vs) (lit "bydate") f = .ok rs
        ∧ List.Chain' (fun a b => a.date.nanos ≤ b.date.nanos) rs) :=
  ⟨⟨_, retrieveFiles_lastmod pdqSwaps vs f,
      After_chain_nanos _ (sortSlice_chain pdqSwaps _ After_ordering _
        (hsort _ _ After_ordering))⟩,
   ⟨_, retrieveFiles_bydate pdqSwaps vs f,
      Before_chain_nanos _ (sortSlice_chain pdqSwaps _ Before_ordering _
        (hsort _ _ Before_ordering))⟩⟩

/-- C3: for a mode other than `lastmod` and `bydate`, `retrieveFiles` returns
the scanned entries in the discovery order of the walk, and does on every walk
what it does for `lexy`. -/
theorem retrieveFiles_other_mode (pdqSwaps : EntrySwaps) (vs : List Visit) (mode f : GoString)
    (h1 : mode ≠ lit "lastmod") (h2 : mode ≠ lit "bydate") :
    retrieveFiles pdqSwaps (.visited vs) mode f = .ok (vs.filterMap (scanEntry f))
      ∧ ∀ w, retrieveFiles pdqSwaps w mode f = retrieveFiles pdqSwaps w (lit "lexy") f := by
  constructor
  · rw [retrieveFiles_visited]
    simp [h1, h2, scan]
  · intro w
    unfold retrieveFiles
    cases walkLoop (walkFn f) [] w.calls with
    | error p => rfl
    | ok r => simp [h1, h2]

/-- C10: for every mode, and whatever `Swap` calls the library sort makes, the
list `retrieveFiles` returns is a permutation of the filtered scan result, so
it has the same entries and the same length. -/
theorem retrieveFiles_perm_scan (pdqSwaps : EntrySwaps) (vs : List Visit) (mode f : GoString) :
    ∃ rs, retrieveFiles pdqSwaps (.visited vs) mode f = .ok rs
      ∧ rs.Perm (vs.filterMap (scanEntry f))
      ∧ rs.length = (vs.filterMap (scanEntry f)).length := by
  by_cases h0 : mode = lit "lexy"
  · subst h0
    exact ⟨_, retrieveFiles_lexy pdqSwaps vs f, List.Perm.refl _, rfl⟩
  · by_cases h1 : mode = lit "lastmod"
    · subst h1
      exact ⟨_, retrieveFiles_lastmod pdqSwaps vs f, sortSlice_perm _ _ _,
        (sortSlice_perm _ _ _).length_eq⟩
    · by_cases h2 : mode = lit "bydate"
      · subst h2
        exact ⟨_, retrieveFiles_bydate pdqSwaps vs f, sortSlice_perm _ _ _,
          (sortSlice_perm _ _ _).length_eq⟩
      · refine ⟨scan f vs, ?_, List.Perm.refl _, rfl⟩
        rw [retrieveFiles_visited]
        simp only [h0, h1, h2, if_false]

/-- C9: on a root that cannot be stat-ed, `WalkDir` calls the callback with a
nil directory entry, and `retrieveFiles` panics instead of returning a list:
so for the root `/nonexistent`, and for every such root, mode and filter.  On
a walk that visits entries, whatever errors they carry, it returns a list. -/
theorem retrieveFiles_missing_root_panics :
    (∀ pdqSwaps, retrieveFiles pdqSwaps (.lstatFailed (lit "/nonexistent")
        (lit "lstat /nonexistent: no such file or directory")) (lit "lexy") (lit "video")
      = .error .nilDereference)
      ∧ (∀ pdqSwaps root err mode f, retrieveFiles pdqSwaps (.lstatFailed root err) mode f
          = .error .nilDereference)
      ∧ ∀ pdqSwaps vs mode f, ∃ rs, retrieveFiles pdqSwaps (.visited vs) mode f = .ok rs := by
  refine ⟨fun _ => rfl, fun _ _ _ _ _ => rfl, ?_⟩
  intro pdqSwaps vs mode f
  rw [retrieveFiles_visited]
  by_cases h0 : mode = lit "lexy"
  · exact ⟨_, by rw [if_pos h0]⟩
  · by_cases h1 : mode = lit "lastmod"
    · exact ⟨_, by rw [if_neg h0, if_pos h1]⟩
    · by_cases h2 : mode = lit "bydate"
      · exact ⟨_, by rw [if_neg h0, if_neg h1, if_pos h2]⟩
      · exact ⟨_, by rw [if_neg h0, if_neg h1, if_neg h2]⟩

/-! ## Lemmas on query escaping -/

set_option maxRecDepth 100000 in
theorem upperhex_facts : ∀ c : Byte,
    ishex (upperhex (c.val >>> 4)) = true ∧ ishex (upperhex (c.val &&& 15)) = true
      ∧ (((unhex (upperhex (c.val >>> 4))) <<< 4) ||| unhex (upperhex (c.val &&& 15))) % 256
          = c.val
      ∧ shouldEscape (upperhex (c.val >>> 4)) = false
      ∧ shouldEscape (upperhex (c.val &&& 15)) = false := by
  decide

set_option maxRecDepth 100000 in
theorem escapedByte_facts : ∀ b : Byte, escapedByte b = true →
    b ≠ ch '\"' ∧ b ≠ ch '&' ∧ b ≠ ch ';' ∧ b ≠ ch '=' := by
  decide

set_option maxRecDepth 100000 in
theorem shouldEscape_false_facts : ∀ b : Byte, shouldEscape b = false →
    b ≠ ch '%' ∧ b ≠ ch '+' ∧ b ≠ ch ' ' := by
  decide

theorem plus_ne_percent : ch '+' ≠ ch '%' := by decide

theorem escapeWrite_of_count (s : GoString) (h : escapeCount s = (0, 0)) :
    escapeWrite s = s := by
  induction s with
  | nil => rfl
  | cons c s ih =>
    unfold escapeCount at h
    cases hc : escapeCount s with
    | mk a b =>
      rw [hc] at h
      by_cases hs : shouldEscape c = true
      · by_cases hsp : c = ch ' '
        · subst hsp
          simp only [hs, if_true, Prod.mk.injEq] at h
          omega
        · simp only [hs, hsp, if_true, if_false, Prod.mk.injEq] at h
          omega
      · have hs2 : shouldEscape c = false := by simpa using hs
        simp only [hs2, Bool.false_eq_true, if_false, Prod.mk.injEq] at h
        have hrec : escapeWrite s = s := ih (by rw [hc, h.1, h.2])
        have hne := (shouldEscape_false_facts c hs2).2.2
        unfold escapeWrite
        simp [hne, hs2, hrec]

theorem QueryEscape_eq (s : GoString) : QueryEscape s = escapeWrite s := by
  unfold QueryEscape
  cases hc : escapeCount s with
  | mk a b =>
    by_cases h : a = 0 ∧ b = 0
    · simp only [h, and_self, if_true]
      exact (escapeWrite_of_count s (by rw [hc, h.1, h.2])).symm
    · simp only [h, if_false]

theorem escapeWrite_bytes (s : GoString) : ∀ b ∈ escapeWrite s, escapedByte b = true := by
  induction s with
  | nil => intro b hb; simp [escapeWrite] at hb
  | cons c s ih =>
    intro b hb
    unfold escapeWrite at hb
    by_cases hsp : c = ch ' '
    · simp only [hsp, if_true, List.mem_cons] at hb
      rcases hb with hb | hb
      · rw [hb]; decide
      · exact ih b hb
    · by_cases hs : shouldEscape c = true
      · simp only [hsp, hs, if_true, if_false, List.mem_cons] at hb
        have hf := upperhex_facts c
        rcases hb with hb | hb | hb | hb
        · rw [hb]; decide
        · rw [hb]; simp [escapedByte, hf.2.2.2.1]
        · rw [hb]; simp [escapedByte, hf.2.2.2.2]
        · exact ih b hb
      · have hs2 : shouldEscape c = false := by simpa using hs
        simp only [hsp, hs2, Bool.false_eq_true, if_false, List.mem_cons] at hb
        rcases hb with hb | hb
        · rw [hb]; simp [escapedByte, hs2]
        · exact ih b hb

theorem unescapeCheck_escapeWrite (s : GoString) :
    ∃ r, unescapeCheck (escapeWrite s) = .ok r := by
  induction s with
  | nil => exact ⟨_, rfl⟩
  | cons c s ih =>
    obtain ⟨⟨n, hp⟩, hr⟩ := ih
    unfold escapeWrite
    by_cases hsp : c = ch ' '
    · refine ⟨(n, true), ?_⟩
      simp only [hsp, if_true]
      unfold unescapeCheck
      simp [plus_ne_percent, hr]
    · by_cases hs : shouldEscape c = true
      · refine ⟨(n + 1, hp), ?_⟩
        have hf := upperhex_facts c
        simp only [hsp, hs, if_true, if_false]
        unfold unescapeCheck
        simp [hf.1, hf.2.1, hr]
      · have hs2 : shouldEscape c = false := by simpa using hs
        have hne := shouldEscape_false_facts c hs2
        refine ⟨(n, hp), ?_⟩
        simp only [hsp, hs2, Bool.false_eq_true, if_false]
        unfold unescapeCheck
        simp [hne.1, hne.2.1, hr]

theorem unescapeWrite_escapeWrite (s : GoString) : unescapeWrite (escapeWrite s) = s := by
  induction s with
  | nil => rfl
  | cons c s ih =>
    unfold escapeWrite
    by_cases hsp : c = ch ' '
    · simp only [hsp, if_true]
      unfold unescapeWrite
      simp [plus_ne_percent, ih]
    · by_cases hs : shouldEscape c = true
      · have hf := upperhex_facts c
        simp only [hsp, hs, if_true, if_false]
        unfold unescapeWrite
        simp only [if_true, ih, List.cons.injEq, and_true]
        apply Fin.ext
        exact hf.2.2.1
      · have hs2 : shouldEscape c = false := by simpa using hs
        have hne := shouldEscape_false_facts c hs2
        simp only [hsp, hs2, Bool.false_eq_true, if_false]
        unfold unescapeWrite
        simp [hne.1, hne.2.1, ih]

theorem unescapeWrite_of_check (s : GoString) (h : unescapeCheck s = .ok (0, false)) :
    unescapeWrite s = s := by
  induction s with
  | nil => rfl
  | cons c s ih =>
    unfold unescapeCheck at h
    by_cases hpc : c = ch '%'
    · simp only [hpc, if_true] at h
      split at h
      · split at h
        · split at h
          · simp at h
          · simp at h
        · simp at h
      · simp at h
    · by_cases hpl : c = ch '+'
      · simp only [hpl, plus_ne_percent, if_true, if_false] at h
        split at h
        · simp at h
        · simp at h
      · simp only [hpc, hpl, if_false] at h
        unfold unescapeWrite
        simp [hpc, hpl, ih h]

theorem QueryUnescape_QueryEscape (s : GoString) : QueryUnescape (QueryEscape s) = .ok s := by
  rw [QueryEscape_eq]
  unfold QueryUnescape
  obtain ⟨⟨n, hp⟩, hr⟩ := unescapeCheck_escapeWrite s
  rw [hr]
  by_cases h : n = 0 ∧ hp = false
  · simp only [h, and_self, if_true]
    have h2 := unescapeWrite_of_check (escapeWrite s) (by rw [hr, h.1, h.2])
    rw [← h2, unescapeWrite_escapeWrite]
  · simp only [h, if_false, unescapeWrite_escapeWrite]


/-! ## Lemmas on the formatted time -/

theorem leap_of_last_day (n400 d1 : Int) (h0 : 0 ≤ d1) (h1 : d1 < 146097)
    (n100a n100 d2 n4 d3 n1a n1 d4 : Int)
    (e1 : n100a = d1 / 36524) (e2 : n100 = n100a - n100a / 4) (e3 : d2 = d1 - 36524 * n100)
    (e4 : n4 = d2 / 1461) (e5 : d3 = d2 - 1461 * n4) (e6 : n1a = d3 / 365)
    (e7 : n1 = n1a - n1a / 4) (e8 : d4 = d3 - 365 * n1) (h : d4 = 365) :
    Time.isLeap (400 * n400 + 100 * n100 + 4 * n4 + n1 + 1) = true := by
  have a1 : 0 ≤ n100a ∧ n100a ≤ 4 := by omega
  have hn100 : 0 ≤ n100 ∧ n100 ≤ 3 := by omega
  have a3 : 0 ≤ d2 ∧ d2 ≤ 36524 := by omega
  have hn4 : 0 ≤ n4 ∧ n4 ≤ 24 := by omega
  have a5 : 0 ≤ d3 ∧ d3 ≤ 1460 := by omega
  have hn1a : n1a = 4 := by omega
  have hn1 : n1 = 3 := by omega
  have hd3 : d3 = 1460 := by omega
  unfold Time.isLeap
  simp only [Bool.and_eq_true, Bool.or_eq_true, decide_eq_true_iff, ne_eq]
  by_cases h24 : n4 = 24
  · have h3 : n100 = 3 := by omega
    subst h24 h3 hn1
    constructor
    · omega
    · right
      omega
  · constructor
    · omega
    · left
      omega

theorem yearAndYday_range (days : Int) :
    0 ≤ (Time.yearAndYday days).2 ∧ (Time.yearAndYday days).2 ≤ 365
      ∧ ((Time.yearAndYday days).2 = 365 → Time.isLeap (Time.yearAndYday days).1 = true) := by
  refine ⟨?_, ?_, ?_⟩
  · unfold Time.yearAndYday
    simp only
    omega
  · unfold Time.yearAndYday
    simp only
    omega
  · intro h
    exact leap_of_last_day ((days + 719162) / 146097) ((days + 719162) % 146097)
      (by omega) (by omega) _ _ _ _ _ _ _ _ rfl rfl rfl rfl rfl rfl rfl rfl h

theorem monthAndDay_range (year yday : Int) (h0 : 0 ≤ yday) (h1 : yday ≤ 365)
    (hl : yday = 365 → Time.isLeap year = true) :
    1 ≤ (Time.monthAndDay year yday).1 ∧ (Time.monthAndDay year yday).1 ≤ 12
      ∧ 1 ≤ (Time.monthAndDay year yday).2 ∧ (Time.monthAndDay year yday).2 ≤ 31 := by
  unfold Time.monthAndDay
  by_cases hleap : Time.isLeap year = true ∧ yday = 31 + 29 - 1
  · simp [hleap]
  · simp only [hleap, if_false]
    generalize hday : (if Time.isLeap year = true ∧ yday > 31 + 29 - 1 then yday - 1 else yday) = day
    have hd0 : 0 ≤ day := by
      rw [← hday]; split <;> omega
    have hd1 : day ≤ 364 := by
      rw [← hday]
      split
      · omega
      · rename_i hn
        by_cases h365 : yday = 365
        · exact absurd ⟨hl h365, by omega⟩ hn
        · omega
    obtain ⟨m, hm⟩ : ∃ m : Nat, day / 31 = (m : Int) := ⟨(day / 31).toNat, by omega⟩
    have hm11 : m ≤ 11 := by omega
    rw [hm]
    interval_cases m <;> simp [Time.daysBefore] <;> split <;> simp <;> omega


set_option maxRecDepth 100000 in
theorem appendInt_two_fin : ∀ n : Fin 100, Time.appendInt (n.val : Int) 2 = twoDigits (n.val : Int) := by
  decide

theorem appendInt_two (x : Int) (h0 : 0 ≤ x) (h1 : x < 100) :
    Time.appendInt x 2 = twoDigits x := by
  obtain ⟨n, rfl⟩ := Int.eq_ofNat_of_zero_le h0
  have hn : n < 100 := by omega
  exact appendInt_two_fin ⟨n, hn⟩

theorem Time.fields_range (t : Time) :
    1 ≤ t.Month ∧ t.Month ≤ 12 ∧ 1 ≤ t.Day ∧ t.Day ≤ 31 ∧ 0 ≤ t.Hour ∧ t.Hour ≤ 23
      ∧ 0 ≤ t.Minute ∧ t.Minute ≤ 59 ∧ 0 ≤ t.Second ∧ t.Second ≤ 59 := by
  have hy := yearAndYday_range (t.localSec / 86400)
  have hm := monthAndDay_range (Time.yearAndYday (t.localSec / 86400)).1
    (Time.yearAndYday (t.localSec / 86400)).2 hy.1 hy.2.1 hy.2.2
  refine ⟨hm.1, hm.2.1, hm.2.2.1, hm.2.2.2, ?_, ?_, ?_, ?_, ?_, ?_⟩ <;>
    simp only [Time.Hour, Time.Minute, Time.Second] <;> omega


theorem yearAndYday_civil (days : Int) :
    daysBeforeYear (Time.yearAndYday days).1 + (Time.yearAndYday days).2 = days := by
  obtain ⟨n400, e0⟩ : ∃ x, x = (days + 719162) / 146097 := ⟨_, rfl⟩
  obtain ⟨d1, e0a⟩ : ∃ x, x = (days + 719162) % 146097 := ⟨_, rfl⟩
  obtain ⟨n100a, e1⟩ : ∃ x, x = d1 / 36524 := ⟨_, rfl⟩
  obtain ⟨n100, e2⟩ : ∃ x, x = n100a - n100a / 4 := ⟨_, rfl⟩
  obtain ⟨d2, e3⟩ : ∃ x, x = d1 - 36524 * n100 := ⟨_, rfl⟩
  obtain ⟨n4, e4⟩ : ∃ x, x = d2 / 1461 := ⟨_, rfl⟩
  obtain ⟨d3, e5⟩ : ∃ x, x = d2 - 1461 * n4 := ⟨_, rfl⟩
  obtain ⟨n1a, e6⟩ : ∃ x, x = d3 / 365 := ⟨_, rfl⟩
  obtain ⟨n1, e7⟩ : ∃ x, x = n1a - n1a / 4 := ⟨_, rfl⟩
  obtain ⟨d4, e8⟩ : ∃ x, x = d3 - 365 * n1 := ⟨_, rfl⟩
  have hy : Time.yearAndYday days = (400 * n400 + 100 * n100 + 4 * n4 + n1 + 1, d4) := by
    subst e0 e0a e1 e2 e3 e4 e5 e6 e7 e8
    rfl
  rw [hy]
  simp only
  have a0 : 0 ≤ d1 ∧ d1 < 146097 := by omega
  have a1 : 0 ≤ n100a ∧ n100a ≤ 4 := by omega
  have a2 : 0 ≤ n100 ∧ n100 ≤ 3 := by omega
  have a3 : 0 ≤ d2 ∧ d2 ≤ 36524 := by omega
  have a4 : 0 ≤ n4 ∧ n4 ≤ 24 := by omega
  have a5 : 0 ≤ d3 ∧ d3 ≤ 1460 := by omega
  have a6 : 0 ≤ n1a ∧ n1a ≤ 4 := by omega
  have a7 : 0 ≤ n1 ∧ n1 ≤ 3 := by omega
  have hd : days + 719162 = 146097 * n400 + 36524 * n100 + 1461 * n4 + 365 * n1 + d4 := by omega
  unfold daysBeforeYear
  have q4 : (400 * n400 + 100 * n100 + 4 * n4 + n1 + 1 - 1) / 4 = 100 * n400 + 25 * n100 + n4 := by
    omega
  have q100 : (400 * n400 + 100 * n100 + 4 * n4 + n1 + 1 - 1) / 100 = 4 * n400 + n100 := by
    omega
  have q400 : (400 * n400 + 100 * n100 + 4 * n4 + n1 + 1 - 1) / 400 = n400 := by
    omega
  rw [q4, q100, q400]
  omega


theorem leapYear_eq (y : Int) : leapYear y = Time.isLeap y := rfl

theorem daysBeforeMonth_table (y : Int) :
    daysBeforeMonth y 1 = 0 ∧ daysBeforeMonth y 2 = 31
      ∧ daysBeforeMonth y 3 = 59 + (if leapYear y then 1 else 0)
      ∧ daysBeforeMonth y 4 = 90 + (if leapYear y then 1 else 0)
      ∧ daysBeforeMonth y 5 = 120 + (if leapYear y then 1 else 0)
      ∧ daysBeforeMonth y 6 = 151 + (if leapYear y then 1 else 0)
      ∧ daysBeforeMonth y 7 = 181 + (if leapYear y then 1 else 0)
      ∧ daysBeforeMonth y 8 = 212 + (if leapYear y then 1 else 0)
      ∧ daysBeforeMonth y 9 = 243 + (if leapYear y then 1 else 0)
      ∧ daysBeforeMonth y 10 = 273 + (if leapYear y then 1 else 0)
      ∧ daysBeforeMonth y 11 = 304 + (if leapYear y then 1 else 0)
      ∧ daysBeforeMonth y 12 = 334 + (if leapYear y then 1 else 0) := by
  cases hL : leapYear y <;>
    simp [daysBeforeMonth, daysInMonth, hL, List.range_succ]

theorem monthAndDay_civil (year yday : Int) (h0 : 0 ≤ yday) (h1 : yday ≤ 365)
    (hl : yday = 365 → Time.isLeap year = true) :
    1 ≤ (Time.monthAndDay year yday).1 ∧ (Time.monthAndDay year yday).1 ≤ 12
      ∧ 1 ≤ (Time.monthAndDay year yday).2
      ∧ (Time.monthAndDay year yday).2
          ≤ daysInMonth year (Time.monthAndDay year yday).1
      ∧ daysBeforeMonth year (Time.monthAndDay year yday).1
          + ((Time.monthAndDay year yday).2 - 1) = yday := by
  have ht := daysBeforeMonth_table year
  unfold Time.monthAndDay
  by_cases hleap : Time.isLeap year = true ∧ yday = 31 + 29 - 1
  · have hL : leapYear year = true := hleap.1
    simp [hleap, daysInMonth, hL, ht.2.1]
  · simp only [hleap, if_false]
    generalize hday : (if Time.isLeap year = true ∧ yday > 31 + 29 - 1 then yday - 1 else yday) = day
    have hd0 : 0 ≤ day := by
      rw [← hday]; split <;> omega
    have hd1 : day ≤ 364 := by
      rw [← hday]
      split
      · omega
      · rename_i hn
        by_cases h365 : yday = 365
        · exact absurd ⟨hl h365, by omega⟩ hn
        · omega
    obtain ⟨m, hm⟩ : ∃ m : Nat, day / 31 = (m : Int) := ⟨(day / 31).toNat, by omega⟩
    have hm11 : m ≤ 11 := by omega
    rw [hm]
    cases hL : leapYear year with
    | false =>
      have hL2 : Time.isLeap year = false := hL
      have hyd : yday = day := by
        rw [← hday]; simp [hL2]
      simp only [hL, Bool.false_eq_true, if_false, add_zero] at ht
      interval_cases m <;> simp [Time.daysBefore] <;> split <;>
        simp [ht, daysInMonth, hL] <;> omega
    | true =>
      have hL2 : Time.isLeap year = true := hL
      have hyd : (yday ≤ 58 ∧ day = yday) ∨ (60 ≤ yday ∧ day = yday - 1) := by
        rw [← hday]
        by_cases h59 : yday > 31 + 29 - 1
        · right
          simp [hL2, h59]
          omega
        · left
          have hne : yday ≠ 59 := fun e => hleap ⟨hL2, by omega⟩
          simp [h59]
          omega
      simp only [hL, if_true] at ht
      interval_cases m <;> simp [Time.daysBefore] <;> split <;>
        simp [ht, daysInMonth, hL] <;> omega


theorem Time.fields_civil (t : Time) :
    1 ≤ t.Month ∧ t.Month ≤ 12 ∧ 1 ≤ t.Day ∧ t.Day ≤ daysInMonth t.Year t.Month
      ∧ 0 ≤ t.Hour ∧ t.Hour ≤ 23 ∧ 0 ≤ t.Minute ∧ t.Minute ≤ 59
      ∧ 0 ≤ t.Second ∧ t.Second ≤ 59
      ∧ daysFromCivil t.Year t.Month t.Day * 86400 + t.Hour * 3600 + t.Minute * 60 + t.Second
          = t.sec + t.offset := by
  have hy := yearAndYday_range (t.localSec / 86400)
  have hc := yearAndYday_civil (t.localSec / 86400)
  have hm := monthAndDay_civil (Time.yearAndYday (t.localSec / 86400)).1
    (Time.yearAndYday (t.localSec / 86400)).2 hy.1 hy.2.1 hy.2.2
  have hL : t.localSec = t.sec + t.offset := rfl
  refine ⟨hm.1, hm.2.1, hm.2.2.1, hm.2.2.2.1, ?_, ?_, ?_, ?_, ?_, ?_, ?_⟩
  · simp only [Time.Hour]; omega
  · simp only [Time.Hour]; omega
  · simp only [Time.Minute]; omega
  · simp only [Time.Minute]; omega
  · simp only [Time.Second]; omega
  · simp only [Time.Second]; omega
  · have hdays : daysFromCivil t.Year t.Month t.Day = t.localSec / 86400 := by
      unfold daysFromCivil
      have h5 := hm.2.2.2.2
      simp only [Time.Year, Time.Month, Time.Day]
      omega
    rw [hdays, ← hL]
    simp only [Time.Hour, Time.Minute, Time.Second]
    omega

theorem yearAndYday_year_range (days : Int) (hlo : -719528 ≤ days) (hhi : days ≤ 2932896) :
    0 ≤ (Time.yearAndYday days).1 ∧ (Time.yearAndYday days).1 ≤ 9999 := by
  have hc := yearAndYday_civil days
  have hy := yearAndYday_range days
  have hleap : (Time.yearAndYday days).2 = 365 → (Time.yearAndYday days).1 % 4 = 0 := by
    intro h
    have h2 := hy.2.2 h
    unfold Time.isLeap at h2
    simp only [Bool.and_eq_true, decide_eq_true_iff] at h2
    exact h2.1
  have hy0 := hy.1
  have hy1 := hy.2.1
  generalize (Time.yearAndYday days).1 = y at hc hleap
  generalize (Time.yearAndYday days).2 = d at hc hleap hy0 hy1
  unfold daysBeforeYear at hc
  constructor
  · by_contra hneg
    by_cases hm1 : y = -1
    · subst hm1
      omega
    · have : y ≤ -2 := by omega
      omega
  · by_contra hneg
    by_cases hm1 : y = 10000
    · subst hm1
      omega
    · have : 10001 ≤ y := by omega
      omega

theorem Time.Year_range (t : Time) (hlo : -62167219200 ≤ t.sec + t.offset)
    (hhi : t.sec + t.offset < 253402300800) : 0 ≤ t.Year ∧ t.Year ≤ 9999 := by
  have hL : t.localSec = t.sec + t.offset := rfl
  exact yearAndYday_year_range (t.localSec / 86400) (by omega) (by omega)

theorem decimalLoop_fuel (fuel extra u : Nat) (h : u < 10 ^ (fuel + 1)) :
    Time.decimalLoop (fuel + 1 + extra) u = Time.decimalLoop (fuel + 1) u := by
  induction fuel generalizing u with
  | zero =>
    have hu : u < 10 := by simpa using h
    rw [show 0 + 1 + extra = extra + 1 by omega]
    simp [Time.decimalLoop, hu]
  | succ n ih =>
    rw [show n + 1 + 1 + extra = (n + 1 + extra) + 1 by omega]
    unfold Time.decimalLoop
    by_cases hu : u < 10
    · simp [hu]
    · have hdiv : u / 10 < 10 ^ (n + 1) := by
        rw [Nat.div_lt_iff_lt_mul (by decide)]
        calc u < 10 ^ (n + 1 + 1) := h
          _ = 10 ^ (n + 1) * 10 := by ring
      simp only [hu, if_false]
      rw [ih _ hdiv]

theorem lt_ten_pow_succ (u : Nat) : u < 10 ^ (u + 1) := by
  calc u < u + 1 := Nat.lt_succ_self u
    _ ≤ 2 ^ (u + 1) := Nat.le_of_lt (Nat.lt_two_pow (u + 1))
    _ ≤ 10 ^ (u + 1) := Nat.pow_le_pow_left (by decide) _

theorem decimal_eq_fuel (fuel u : Nat) (h : u < 10 ^ (fuel + 1)) :
    Time.decimal u = Time.decimalLoop (fuel + 1) u := by
  unfold Time.decimal
  by_cases hle : fuel ≤ u
  · have := decimalLoop_fuel fuel (u - fuel) u h
    rw [← this]
    congr 1
    omega
  · have := decimalLoop_fuel u (fuel - u) u (lt_ten_pow_succ u)
    rw [← this]
    congr 1
    omega

theorem appendInt_four (x : Int) (h0 : 0 ≤ x) (h1 : x ≤ 9999) :
    Time.appendInt x 4 = fourDigits x := by
  obtain ⟨n, rfl⟩ := Int.eq_ofNat_of_zero_le h0
  have hn : n ≤ 9999 := by omega
  have hneg : ¬ ((n : Int) < 0) := by omega
  unfold Time.appendInt fourDigits digit
  simp only [hneg, if_false, Int.natAbs_ofNat, Int.toNat_ofNat, List.nil_append]
  rw [decimal_eq_fuel 3 n (by omega)]
  by_cases c1 : n < 10
  · have e1 : n / 1000 = 0 := by omega
    have e2 : n / 100 % 10 = 0 := by omega
    have e3 : n / 10 % 10 = 0 := by omega
    have e4 : n % 10 = n := by omega
    simp [Time.decimalLoop, c1, e1, e2, e3, e4, List.replicate, ch]
  · by_cases c2 : n < 100
    · have c2a : n / 10 < 10 := by omega
      have e1 : n / 1000 = 0 := by omega
      have e2 : n / 100 % 10 = 0 := by omega
      have e3 : n / 10 % 10 = n / 10 := by omega
      simp [Time.decimalLoop, c1, c2a, e1, e2, e3, List.replicate, ch]
    · by_cases c3 : n < 1000
      · have c2a : ¬ n / 10 < 10 := by omega
        have c3a : n / 10 / 10 < 10 := by omega
        have e1 : n / 1000 = 0 := by omega
        have e2 : n / 100 % 10 = n / 10 / 10 := by omega
        simp [Time.decimalLoop, c1, c2a, c3a, e1, e2, List.replicate, ch]
      · have c2a : ¬ n / 10 < 10 := by omega
        have c3a : ¬ n / 10 / 10 < 10 := by omega
        have c4a : n / 10 / 10 / 10 < 10 := by omega
        have e1 : n / 1000 = n / 10 / 10 / 10 := by omega
        have e2 : n / 100 % 10 = n / 10 / 10 % 10 := by omega
        simp [Time.decimalLoop, c1, c2a, c3a, c4a, e1, e2, List.replicate]

/-! ## Lemmas on the rendered link and the parsed query -/

theorem cut_not_mem (sep : Byte) (s : GoString) (h : sep ∉ s) : cut sep s = (s, [], false) := by
  induction s with
  | nil => rfl
  | cons c s ih =>
    have hc : c ≠ sep := fun e => h (by simp [e])
    have hs : sep ∉ s := fun e => h (by simp [e])
    unfold cut
    simp [hc, ih hs]

theorem cut_length (sep : Byte) (s : GoString) : (cut sep s).2.1.length ≤ s.length - 1 := by
  induction s with
  | nil => simp [cut]
  | cons c s ih =>
    unfold cut
    by_cases hc : c = sep
    · simp [hc]
    · cases hcut : cut sep s with
      | mk before rest =>
        cases rest with
        | mk after found =>
          rw [hcut] at ih
          simp only [hc, if_false, List.length_cons, Nat.add_sub_cancel]
          simp only at ih
          omega

theorem parseQueryLoop_fuel (fuel extra : Nat) (m : Values) (err : Option GoError)
    (q : GoString) (h : q.length ≤ fuel) :
    parseQueryLoop (fuel + extra) m err q = parseQueryLoop fuel m err q := by
  induction fuel generalizing m err q with
  | zero =>
    have hq : q = [] := List.length_eq_zero.1 (by omega)
    subst hq
    cases extra with
    | zero => rfl
    | succ k => simp [parseQueryLoop, lit]
  | succ n ih =>
    rw [Nat.add_right_comm]
    unfold parseQueryLoop
    by_cases hq : q = lit ""
    · simp [hq]
    · have hlen : (cut (ch '&') q).2.1.length ≤ n := by
        have h1 := cut_length (ch '&') q
        have h2 : q.length ≠ 0 := fun e => hq (by simpa [lit] using List.length_eq_zero.1 e)
        omega
      simp only [hq, if_false, fun m err => ih m err _ hlen]

theorem stringsContains_singleton (s : GoString) (b : Byte) :
    stringsContains s [b] = true ↔ b ∈ s := by
  rw [stringsContains_iff]
  constructor
  · intro h
    exact h.subset (by simp)
  · intro h
    obtain ⟨l1, l2, rfl⟩ := List.append_of_mem h
    exact ⟨l1, l2, by simp⟩

theorem Encode_path (p : GoString) :
    Values.Encode (Values.Add [] (lit "path") p) = lit "path=" ++ QueryEscape p := by
  have h1 : QueryEscape (lit "path") = lit "path" := by decide
  have h2 : lit "path" ++ [ch '='] = lit "path=" := by decide
  rw [← h2]
  simp [Values.Encode, Values.Add, Values.lookup, sortKeys, insertionSort_func, insertLeft, h1]

theorem Encode_path_bytes (p : GoString) :
    ∀ b ∈ Values.Encode (Values.Add [] (lit "path") p),
      b ≠ ch '\"' ∧ b ≠ ch '&' ∧ b ≠ ch ';' := by
  intro b hb
  rw [Encode_path, List.mem_append] at hb
  rcases hb with hb | hb
  · have hb2 : b ∈ ([112, 97, 116, 104, 61] : GoString) := by simpa [lit] using hb
    simp only [List.mem_cons, List.mem_singleton, List.not_mem_nil, or_false] at hb2
    rcases hb2 with h | h | h | h | h <;> subst h <;> decide
  · rw [QueryEscape_eq] at hb
    have h := escapedByte_facts b (escapeWrite_bytes p b hb)
    exact ⟨h.1, h.2.1, h.2.2.1⟩

theorem takeWhile_append_stop {α : Type} (q : α → Bool) (a : List α) (b : α) (c : List α)
    (ha : ∀ x ∈ a, q x = true) (hb : q b = false) :
    (a ++ b :: c).takeWhile q = a := by
  induction a with
  | nil => simp [List.takeWhile, hb]
  | cons x a ih =>
    have hx : q x = true := ha x (by simp)
    rw [List.cons_append, List.takeWhile_cons, hx, if_pos rfl,
      ih (fun y hy => ha y (by simp [hy]))]

theorem hrefQuery_entry (p name date : GoString) :
    hrefQuery (entry p name date) = Values.Encode (Values.Add [] (lit "path") p) := by
  unfold hrefQuery entry
  have hhead : ∀ rest : GoString,
      afterFirst (lit "/content/?") (lit "<tr><td><a href=\"/content/?" ++ rest) = rest := by
    intro rest
    simp [lit, afterFirst, hasPrefix]
  simp only [List.append_assoc]
  rw [hhead]
  have hq : lit "\">" = ch '\"' :: lit ">" := by decide
  rw [hq, List.cons_append]
  apply takeWhile_append_stop
  · intro x hx
    have := (Encode_path_bytes p x hx).1
    simpa using this
  · simp

theorem parseQuery_path (p : GoString) :
    ParseQuery (lit "path=" ++ QueryEscape p) = ([(lit "path", [p])], none) := by
  have hbytes : ∀ b ∈ lit "path=" ++ QueryEscape p, b ≠ ch '&' ∧ b ≠ ch ';' := by
    intro b hb
    rw [← Encode_path] at hb
    exact (Encode_path_bytes p b hb).2
  have hlen : (lit "path=" ++ QueryEscape p).length = (4 + (QueryEscape p).length) + 1 := by
    simp [lit]
    omega
  have hne : lit "path=" ++ QueryEscape p ≠ lit "" := by simp [lit]
  have hcut : cut (ch '&') (lit "path=" ++ QueryEscape p)
      = (lit "path=" ++ QueryEscape p, [], false) :=
    cut_not_mem _ _ (fun h => (hbytes _ h).1 rfl)
  have hsemi : stringsContains (lit "path=" ++ QueryEscape p) (lit ";") = false := by
    cases h : stringsContains (lit "path=" ++ QueryEscape p) (lit ";") with
    | false => rfl
    | true =>
      have h2 : lit ";" = [ch ';'] := by decide
      rw [h2, stringsContains_singleton] at h
      exact absurd rfl (hbytes _ h).2
  have hcut2 : cut (ch '=') (lit "path=" ++ QueryEscape p) = (lit "path", QueryEscape p, true) := by
    simp [lit, cut, ch]
  have hkey : QueryUnescape (lit "path") = .ok (lit "path") := by rfl
  unfold ParseQuery
  rw [hlen]
  unfold parseQueryLoop
  simp only [hne, if_false, hcut, hsemi, Bool.false_eq_true, hcut2, hkey,
    QueryUnescape_QueryEscape, Values.Add]
  cases hn : 4 + (QueryEscape p).length with
  | zero => simp [parseQueryLoop]
  | succ n => simp [parseQueryLoop, lit]

theorem finish_WriteHeader (method : GoString) (code : Nat) :
    ((⟨method, false, 0, []⟩ : ResponseWriter).WriteHeader code).finish = ⟨code, []⟩ := by
  rfl

theorem finish_Write (method : GoString) (data : List Byte) :
    ((⟨method, false, 0, []⟩ : ResponseWriter).Write data).finish
      = ⟨200, if method = lit "HEAD" then [] else data⟩ := by
  by_cases h : method = lit "HEAD"
  · simp [ResponseWriter.Write, ResponseWriter.WriteHeader, ResponseWriter.finish, h]
  · simp [ResponseWriter.Write, ResponseWriter.WriteHeader, ResponseWriter.finish, h]

theorem contentHandler_eq (readFile : GoString → Except GoError (List Byte))
    (method rawQuery : GoString) :
    contentHandler readFile method rawQuery =
      match readFile ((Query rawQuery).Get (lit "path")) with
      | .ok data => ⟨200, if method = lit "HEAD" then [] else data⟩
      | .error _ => ⟨404, []⟩ := by
  cases h : readFile ((Query rawQuery).Get (lit "path")) with
  | error e => simp only [contentHandler, h, finish_WriteHeader]
  | ok data => simp only [contentHandler, h, finish_Write]

theorem Query_path (p : GoString) :
    (Query (lit "path=" ++ QueryEscape p)).Get (lit "path") = p := by
  unfold Query
  rw [parseQuery_path]
  simp [Values.Get, Values.lookup]

theorem populatePage_foldl (entries : List entry_info) (w : GoString) :
    entries.foldl
        (fun w e =>
          w ++ entry e.path e.name (e.date.Format (lit "2006-01-02 15:04:05")) ++ lit "\n") w
      = w ++ (entries.map (fun e =>
          entry e.path e.name (e.date.Format (lit "2006-01-02 15:04:05")) ++ lit "\n")).flatten := by
  induction entries generalizing w with
  | nil => simp
  | cons e es ih =>
    simp only [List.foldl_cons, List.map_cons, List.flatten_cons]
    rw [ih]
    simp [List.append_assoc]

theorem Format_layout (t : Time) :
    t.Format (lit "2006-01-02 15:04:05")
      = Time.appendInt t.Year 4 ++ lit "-" ++ twoDigits t.Month ++ lit "-"
        ++ twoDigits t.Day ++ lit " " ++ twoDigits t.Hour ++ lit ":"
        ++ twoDigits t.Minute ++ lit ":" ++ twoDigits t.Second := by
  have h := Time.fields_range t
  rw [← appendInt_two t.Month (by omega) (by omega), ← appendInt_two t.Day (by omega) (by omega),
    ← appendInt_two t.Hour (by omega) (by omega), ← appendInt_two t.Minute (by omega) (by omega),
    ← appendInt_two t.Second (by omega) (by omega)]
  simp [lit, Time.Format, hasPrefix]

theorem populatePage_general (entries : List entry_info) :
    populatePage entries
      = (entries.map (fun e =>
          lit "<tr><td><a href=\"/content/?" ++ (lit "path=" ++ QueryEscape e.path)
            ++ lit "\">" ++ e.name ++ lit "</a></td><td>"
            ++ (Time.appendInt e.date.Year 4 ++ lit "-" ++ twoDigits e.date.Month
              ++ lit "-" ++ twoDigits e.date.Day ++ lit " "
              ++ twoDigits e.date.Hour ++ lit ":" ++ twoDigits e.date.Minute
              ++ lit ":" ++ twoDigits e.date.Second)
            ++ lit "</td></tr>" ++ lit "\n")).flatten := by
  unfold populatePage
  rw [populatePage_foldl, List.nil_append]
  congr 1
  apply List.map_congr_left
  intro e _
  have h1 : lit "</a></td><td>" = lit "</a></td>" ++ lit "<td>" := by decide
  simp only [entry, Encode_path, Format_layout, h1, List.append_assoc]

/-! ## The claims on the renderer and the content route -/

/-- C4: the query of the link that `entry(p, name, date)` renders, parsed as a
URL query, gives back `p` as the value of `path`, for every byte string `p`;
the encoded query holds no double quote. -/
theorem entry_path_roundtrip (p name date : GoString) :
    (Query (hrefQuery (entry p name date))).Get (lit "path") = p
      ∧ ch '\"' ∉ Values.Encode (Values.Add [] (lit "path") p)
      ∧ hrefQuery (entry p name date) = Values.Encode (Values.Add [] (lit "path") p) := by
  refine ⟨?_, ?_, hrefQuery_entry p name date⟩
  · rw [hrefQuery_entry, Encode_path]
    unfold Query
    rw [parseQuery_path]
    simp [Values.Get, Values.lookup]
  · intro h
    exact (Encode_path_bytes p _ h).1 rfl

/-- C5 (amended): the content handler reads the file that the `path` query
parameter names: for the query `path=` followed by the escaped path `p` that
is the file `p`.  When the read succeeds the status is 200 and the body is the
bytes of the file, except for a `HEAD` request, whose body is empty; when the
read fails the status is 404 and the body is empty.  The root is no input of
the handler. -/
theorem contentHandler_response (readFile : GoString → Except GoError (List Byte))
    (method rawQuery p : GoString) :
    contentHandler readFile method rawQuery =
        (match readFile ((Query rawQuery).Get (lit "path")) with
        | .ok data => ⟨200, if method = lit "HEAD" then [] else data⟩
        | .error _ => ⟨404, []⟩)
      ∧ (Query (lit "path=" ++ QueryEscape p)).Get (lit "path") = p
      ∧ contentHandler readFile method (lit "path=" ++ QueryEscape p) =
        (match readFile p with
        | .ok data => ⟨200, if method = lit "HEAD" then [] else data⟩
        | .error _ => ⟨404, []⟩) := by
  refine ⟨contentHandler_eq readFile method rawQuery, Query_path p, ?_⟩
  rw [contentHandler_eq, Query_path]

set_option maxRecDepth 100000 in
/-- C5, as stated, fails for a `HEAD` request: the file `/tmp/f.bin` holds
`DATA` and the read succeeds, yet the response to `HEAD /content/?path=%2Ftmp%2Ff.bin`
has status 200 and an empty body; the same request with `GET` has the body
`DATA`. -/
theorem contentHandler_head_empty_body :
    (Query (lit "path=%2Ftmp%2Ff.bin")).Get (lit "path") = lit "/tmp/f.bin"
      ∧ oneFile (lit "/tmp/f.bin") (lit "DATA") (lit "/tmp/f.bin") = .ok (lit "DATA")
      ∧ contentHandler (oneFile (lit "/tmp/f.bin") (lit "DATA")) (lit "HEAD")
          (lit "path=%2Ftmp%2Ff.bin") = ⟨200, []⟩
      ∧ (contentHandler (oneFile (lit "/tmp/f.bin") (lit "DATA")) (lit "HEAD")
          (lit "path=%2Ftmp%2Ff.bin")).body ≠ lit "DATA"
      ∧ contentHandler (oneFile (lit "/tmp/f.bin") (lit "DATA")) (lit "GET")
          (lit "path=%2Ftmp%2Ff.bin") = ⟨200, lit "DATA"⟩ :=
  ⟨by decide, rfl, by decide, by decide, by decide⟩

/-- C6: the heading text is the root path followed by `, with filter: ` and
the filter when the filter is not empty, and the root path alone when it is;
`filterTitle(f)` is empty exactly when `f` is. -/
theorem headingText_filter (r f : GoString) :
    headingText r f = (if f = [] then r else r ++ lit ", with filter: " ++ f)
      ∧ (filterTitle f = [] ↔ f = []) := by
  unfold headingText filterTitle
  by_cases hf : f = []
  · simp [hf, lit]
  · have hl : f ≠ lit "" := by simpa [lit] using hf
    simp [hf, hl, lit]

/-- C7 (amended): for every entry list whose modification times, read in
their time zone, lie in the years 0 to 9999, `populatePage` is the
concatenation, in input order, of one row per entry followed by a newline; the
row holds the URL-query encoding of `path=<entry path>`, the name as it is,
and the modification time as `YYYY-MM-DD HH:MM:SS`, every field zero-padded,
with nothing after the seconds.  The empty list renders as the empty string.
For every entry list the row is the same with the year padded to at least
four digits.  The fields are those of the modification time: a date of the
calendar with an hour from 0 to 23, whose seconds since 1970-01-01 00:00:00
are the seconds of the time plus its zone offset. -/
theorem populatePage_rows (entries : List entry_info)
    (hyears : ∀ e ∈ entries, -62167219200 ≤ e.date.sec + e.date.offset
      ∧ e.date.sec + e.date.offset < 253402300800) :
    populatePage entries
        = (entries.map (fun e =>
            lit "<tr><td><a href=\"/content/?" ++ (lit "path=" ++ QueryEscape e.path)
              ++ lit "\">" ++ e.name ++ lit "</a></td><td>"
              ++ (fourDigits e.date.Year ++ lit "-" ++ twoDigits e.date.Month
                ++ lit "-" ++ twoDigits e.date.Day ++ lit " "
                ++ twoDigits e.date.Hour ++ lit ":" ++ twoDigits e.date.Minute
                ++ lit ":" ++ twoDigits e.date.Second)
              ++ lit "</td></tr>" ++ lit "\n")).flatten
      ∧ (∀ e ∈ entries, 0 ≤ e.date.Year ∧ e.date.Year ≤ 9999)
      ∧ populatePage [] = []
      ∧ (∀ es : List entry_info, populatePage es
          = (es.map (fun e =>
              lit "<tr><td><a href=\"/content/?" ++ (lit "path=" ++ QueryEscape e.path)
                ++ lit "\">" ++ e.name ++ lit "</a></td><td>"
                ++ (Time.appendInt e.date.Year 4 ++ lit "-" ++ twoDigits e.date.Month
                  ++ lit "-" ++ twoDigits e.date.Day ++ lit " "
                  ++ twoDigits e.date.Hour ++ lit ":" ++ twoDigits e.date.Minute
                  ++ lit ":" ++ twoDigits e.date.Second)
                ++ lit "</td></tr>" ++ lit "\n")).flatten)
      ∧ ∀ t : Time,
          1 ≤ t.Month ∧ t.Month ≤ 12 ∧ 1 ≤ t.Day ∧ t.Day ≤ daysInMonth t.Year t.Month
            ∧ 0 ≤ t.Hour ∧ t.Hour ≤ 23 ∧ 0 ≤ t.Minute ∧ t.Minute ≤ 59
            ∧ 0 ≤ t.Second ∧ t.Second ≤ 59
            ∧ daysFromCivil t.Year t.Month t.Day * 86400 + t.Hour * 3600 + t.Minute * 60
                + t.Second = t.sec + t.offset := by
  have hrange : ∀ e ∈ entries, 0 ≤ e.date.Year ∧ e.date.Year ≤ 9999 :=
    fun e he => Time.Year_range e.date (hyears e he).1 (hyears e he).2
  have hrows : ∀ e ∈ entries,
      lit "<tr><td><a href=\"/content/?" ++ (lit "path=" ++ QueryEscape e.path)
        ++ lit "\">" ++ e.name ++ lit "</a></td><td>"
        ++ (Time.appendInt e.date.Year 4 ++ lit "-" ++ twoDigits e.date.Month
          ++ lit "-" ++ twoDigits e.date.Day ++ lit " "
          ++ twoDigits e.date.Hour ++ lit ":" ++ twoDigits e.date.Minute
          ++ lit ":" ++ twoDigits e.date.Second)
        ++ lit "</td></tr>" ++ lit "\n"
      = lit "<tr><td><a href=\"/content/?" ++ (lit "path=" ++ QueryEscape e.path)
        ++ lit "\">" ++ e.name ++ lit "</a></td><td>"
        ++ (fourDigits e.date.Year ++ lit "-" ++ twoDigits e.date.Month
          ++ lit "-" ++ twoDigits e.date.Day ++ lit " "
          ++ twoDigits e.date.Hour ++ lit ":" ++ twoDigits e.date.Minute
          ++ lit ":" ++ twoDigits e.date.Second)
        ++ lit "</td></tr>" ++ lit "\n" := by
    intro e he
    rw [appendInt_four e.date.Year (hrange e he).1 (hrange e he).2]
  constructor
  · rw [populatePage_general, List.map_congr_left hrows]
  constructor
  · exact hrange
  constructor
  · rfl
  constructor
  · exact fun es => populatePage_general es
  · exact fun t => Time.fields_civil t

set_option maxRecDepth 100000 in
theorem populatePage_rows_witness :
    (∀ e ∈ twoEntries, -62167219200 ≤ e.date.sec + e.date.offset
        ∧ e.date.sec + e.date.offset < 253402300800)
      ∧ populatePage twoEntries
        = lit "<tr><td><a href=\"/content/?path=%2Fsrv%2Fa+b.mp4\">a.mp4</a></td><td>1970-01-01 23:59:59</td></tr>\n<tr><td><a href=\"/content/?path=%2Fsrv%2Fc.mkv\">c.mkv</a></td><td>2024-03-01 00:59:59</td></tr>\n" :=
  ⟨by decide, (populatePage_rows twoEntries (by decide)).1.trans (by decide)⟩

set_option maxRecDepth 100000 in
/-- C7, as stated, fails for a modification time in the year 10000: the date
cell is `10000-01-01 00:00:00`, and the row is not of the form with
`YYYY-MM-DD HH:MM:SS` for any values of the six fields. -/
theorem populatePage_year_10000 :
    populatePage [⟨lit "f", lit "/f", ⟨253402300800, 0, 0⟩⟩]
        = lit "<tr><td><a href=\"/content/?path=%2Ff\">f</a></td><td>10000-01-01 00:00:00</td></tr>\n"
      ∧ ∀ y m d h mi s : Int,
          populatePage [⟨lit "f", lit "/f", ⟨253402300800, 0, 0⟩⟩]
            ≠ lit "<tr><td><a href=\"/content/?" ++ (lit "path=" ++ QueryEscape (lit "/f"))
              ++ lit "\">" ++ lit "f" ++ lit "</a></td><td>"
              ++ (fourDigits y ++ lit "-" ++ twoDigits m ++ lit "-" ++ twoDigits d ++ lit " "
                ++ twoDigits h ++ lit ":" ++ twoDigits mi ++ lit ":" ++ twoDigits s)
              ++ lit "</td></tr>" ++ lit "\n" := by
  have hlit : populatePage [⟨lit "f", lit "/f", ⟨253402300800, 0, 0⟩⟩]
      = lit "<tr><td><a href=\"/content/?path=%2Ff\">f</a></td><td>10000-01-01 00:00:00</td></tr>\n" := by
    decide
  refine ⟨hlit, ?_⟩
  intro y m d h mi s heq
  rw [hlit] at heq
  have hq : QueryEscape (lit "/f") = lit "%2Ff" := by decide
  rw [hq] at heq
  have hlen := congrArg List.length heq
  simp [lit, fourDigits, twoDigits] at hlen

/-! ## The scenario -/

theorem perm_pair {α : Type} (l : List α) (a b : α) (h : l.Perm [a, b]) :
    l = [a, b] ∨ l = [b, a] := by
  have hlen := h.length_eq
  match l, hlen, h with
  | [x, y], _, h =>
    have hx : x ∈ [a, b] := h.subset (by simp)
    simp only [List.mem_cons, List.mem_singleton, List.not_mem_nil, or_false] at hx
    rcases hx with hx | hx
    · subst hx
      have h2 := (List.perm_cons x).1 h
      rw [List.perm_singleton] at h2
      left
      rw [List.cons.injEq] at h2
      rw [h2.1]
    · subst hx
      have h2 := (List.perm_cons x).1 (h.trans (List.Perm.swap x a []))
      rw [List.perm_singleton] at h2
      right
      rw [List.cons.injEq] at h2
      rw [h2.1]

/-- C8: when the files the walk yields are `a.mp4` (video/mp4, time `t1`),
`b.txt` (text/plain, `t2`) and `c.mkv` (video/x-matroska, `t3`) with
`t1 < t2 < t3`, in any discovery order and among any directories, filter
`video` and mode `bydate` give the entries of `a.mp4` and `c.mkv` in this
order, and `populatePage` renders exactly their two rows. -/
theorem scenario_video_bydate (pdqSwaps : EntrySwaps) (vs : List Visit) (pa pb pc : GoString)
    (t1 t2 t3 : Time)
    (h12 : t1.nanos < t2.nanos) (h23 : t2.nanos < t3.nanos)
    (hvs : (vs.filter (fun v => !v.d.isDir)).Perm
      [fileVisit pa (lit "a.mp4") (lit "video/mp4") t1,
       fileVisit pb (lit "b.txt") (lit "text/plain") t2,
       fileVisit pc (lit "c.mkv") (lit "video/x-matroska") t3]) :
    ∃ rs, retrieveFiles pdqSwaps (.visited vs) (lit "bydate") (lit "video") = .ok rs
      ∧ rs = [⟨lit "a.mp4", pa, t1⟩, ⟨lit "c.mkv", pc, t3⟩]
      ∧ populatePage rs
        = entry pa (lit "a.mp4") (t1.Format (lit "2006-01-02 15:04:05")) ++ lit "\n"
          ++ (entry pc (lit "c.mkv") (t3.Format (lit "2006-01-02 15:04:05")) ++ lit "\n") := by
  have hv1 : lit "video" <:+: lit "video/mp4" := by decide
  have hv2 : ¬ lit "video" <:+: lit "text/plain" := by decide
  have hv3 : lit "video" <:+: lit "video/x-matroska" := by decide
  have hscan : (scan (lit "video") vs).Perm
      [⟨lit "a.mp4", pa, t1⟩, ⟨lit "c.mkv", pc, t3⟩] := by
    rw [← scan_filter_not_dir]
    have h := List.Perm.filterMap (scanEntry (lit "video")) hvs
    have he : List.filterMap (scanEntry (lit "video"))
        [fileVisit pa (lit "a.mp4") (lit "video/mp4") t1,
         fileVisit pb (lit "b.txt") (lit "text/plain") t2,
         fileVisit pc (lit "c.mkv") (lit "video/x-matroska") t3]
        = [⟨lit "a.mp4", pa, t1⟩, ⟨lit "c.mkv", pc, t3⟩] := by
      have hne : lit "video" ≠ [] := by decide
      simp [List.filterMap_cons, scanEntry, fileVisit, hv1, hv2, hv3, hne]
    rw [he] at h
    exact h
  have hb13 : t1.Before t3 = true := (Time.Before_iff _ _).2 (by omega)
  have hb31 : t3.Before t1 = false := by
    rw [← Bool.not_eq_true, Time.Before_iff]
    omega
  have hsort : sortSlice pdqSwaps (fun a b : entry_info => a.date.Before b.date)
      (scan (lit "video") vs) = [⟨lit "a.mp4", pa, t1⟩, ⟨lit "c.mkv", pc, t3⟩] := by
    rcases perm_pair _ _ _ hscan with h | h
    · rw [h]
      simp [sortSlice, insertionSort_func, insertLeft, hb31]
    · rw [h]
      simp [sortSlice, insertionSort_func, insertLeft, hb13]
  refine ⟨_, retrieveFiles_bydate pdqSwaps vs (lit "video"), hsort, ?_⟩
  rw [hsort]
  simp [populatePage]

theorem scenario_video_bydate_witness :
    (⟨100, 0, 0⟩ : Time).nanos < (⟨200, 0, 0⟩ : Time).nanos
      ∧ (⟨200, 0, 0⟩ : Time).nanos < (⟨300, 0, 0⟩ : Time).nanos
      ∧ ∃ rs, retrieveFiles insertionSortSwaps (.visited scenarioWalk) (lit "bydate")
            (lit "video") = .ok rs
        ∧ rs = [⟨lit "a.mp4", lit "root/z/a.mp4", ⟨100, 0, 0⟩⟩,
                ⟨lit "c.mkv", lit "root/x/c.mkv", ⟨300, 0, 0⟩⟩]
        ∧ populatePage rs
          = entry (lit "root/z/a.mp4") (lit "a.mp4")
              ((⟨100, 0, 0⟩ : Time).Format (lit "2006-01-02 15:04:05")) ++ lit "\n"
            ++ (entry (lit "root/x/c.mkv") (lit "c.mkv")
              ((⟨300, 0, 0⟩ : Time).Format (lit "2006-01-02 15:04:05")) ++ lit "\n") :=
  ⟨by decide, by decide,
    scenario_video_bydate insertionSortSwaps scenarioWalk (lit "root/z/a.mp4")
      (lit "root/y/b.txt") (lit "root/x/c.mkv")
      ⟨100, 0, 0⟩ ⟨200, 0, 0⟩ ⟨300, 0, 0⟩ (by decide) (by decide)
      (List.reverse_perm
        [fileVisit (lit "root/z/a.mp4") (lit "a.mp4") (lit "video/mp4") ⟨100, 0, 0⟩,
         fileVisit (lit "root/y/b.txt") (lit "b.txt") (lit "text/plain") ⟨200, 0, 0⟩,
         fileVisit (lit "root/x/c.mkv") (lit "c.mkv") (lit "video/x-matroska") ⟨300, 0, 0⟩])⟩

theorem retrieveFiles_other_mode_witness :
    lit "name" ≠ lit "lastmod" ∧ lit "name" ≠ lit "bydate"
      ∧ retrieveFiles insertionSortSwaps (.visited unsortedWalk) (lit "name") (lit "video")
        = .ok [⟨lit "z.mp4", lit "root/a/z.mp4", ⟨100, 0, 0⟩⟩,
               ⟨lit "b.mp4", lit "root/b.mp4", ⟨200, 0, 0⟩⟩]
      ∧ retrieveFiles insertionSortSwaps (.visited unsortedWalk) (lit "name") (lit "video")
        = retrieveFiles insertionSortSwaps (.visited unsortedWalk) (lit "lexy") (lit "video") :=
  ⟨by decide, by decide,
    (retrieveFiles_other_mode insertionSortSwaps unsortedWalk (lit "name") (lit "video")
      (by decide) (by decide)).1.trans (congrArg Except.ok (by decide)),
    (retrieveFiles_other_mode insertionSortSwaps unsortedWalk (lit "name") (lit "video")
      (by decide) (by decide)).2 _⟩

theorem retrieveFiles_sorted_by_date_witness :
    (∀ (less : entry_info → entry_info → Bool) (data : List entry_info),
        TransitiveOrdering less → 12 < data.length →
          List.Chain' (fun a b => less b a = false)
            (applySwaps (insertionSortSwaps less data) data))
      ∧ 12 < (fourteenFiles.filterMap (scanEntry (lit "video"))).length
      ∧ (∃ rs, retrieveFiles insertionSortSwaps (.visited fourteenFiles) (lit "lastmod")
            (lit "video") = .ok rs
          ∧ List.Chain' (fun a b => b.date.nanos ≤ a.date.nanos) rs)
      ∧ (∃ rs, retrieveFiles insertionSortSwaps (.visited fourteenFiles) (lit "bydate")
            (lit "video") = .ok rs
          ∧ List.Chain' (fun a b => a.date.nanos ≤ b.date.nanos) rs) :=
  ⟨fun less data h _ => insertionSortSwaps_sorts less data h, by decide,
    retrieveFiles_sorted_by_date insertionSortSwaps
      (fun less data h _ => insertionSortSwaps_sorts less data h) (lit "video") fourteenFiles⟩

end RView
